import Mathlib

/-!
Verification of the message store / query engine of the encrypted-socket-messenger
repository (src/src/message_handler.py, src/src/schema.py, src/src/slice_string.py,
and the store-facing parts of src/src/server.py).

The embedding is shallow: Python dictionaries become association lists, the two
document schemas become explicit field-descriptor tables, datetimes become a
seven-field record, and every Python function used by the claims is translated
into an executable Lean function.  Python exceptions are modelled by an error
type threaded through `Except` (for read-only operations) or returned next to
the mutated store (for in-place mutating loops, whose partial effects survive
the exception exactly as in Python).

Modelling notes (deviations forced by the host language, none load-bearing for
the theorems below):
* `sorted(_list, key=f)` is modelled by `List.insertionSort` on the extracted
  key; both are stable sorts, and stable sorts agree on every input.
* CPython's `list(set(xs))` has an unspecified iteration order; it is modelled
  by first-occurrence-order deduplication (`dedupF`).  Every theorem below is
  insensitive to this order.
* `pickle`d byte strings are kept opaque (constructor `Prim.bytes`); the
  `is_addr_type` branch that unpickles bytes is modelled as `false`.
* real wall-clock defaults (`datetime.now()`) are passed in as an explicit
  `now` argument.
-/

namespace ESM

/-! ### Small helpers shared by the embedding -/

/-- Python `str.zfill`-style left zero padding (as used via `"".zfill(n)`). -/
def zfill (n : Nat) (s : String) : String :=
  String.mk (List.replicate (n - s.length) '0') ++ s

/-- Python dictionary read `d[k]` (as `Option`; callers turn `none` into KeyError). -/
def aget {α : Type} (d : List (String × α)) (k : String) : Option α :=
  match d with
  | [] => none
  | (k₁, v) :: r => if k₁ = k then some v else aget r k

/-- Python dictionary write `d[k] = v`: replaces in place (keys keep their
position) or appends a new key at the end. -/
def aset {α : Type} (d : List (String × α)) (k : String) (v : α) : List (String × α) :=
  match d with
  | [] => [(k, v)]
  | (k₁, v₁) :: r => if k₁ = k then (k, v) :: r else (k₁, v₁) :: aset r k v

/-- Worker for `dedupF`: keep the elements not seen before. -/
def dedupGo {α : Type} [DecidableEq α] (seen : List α) : List α → List α
  | [] => []
  | x :: r => if seen.contains x then dedupGo seen r else x :: dedupGo (x :: seen) r

/-- First-occurrence-order deduplication, modelling `list(set(xs))`. -/
def dedupF {α : Type} [DecidableEq α] (l : List α) : List α := dedupGo [] l

/-- Fuelled worker for `splitSub` (the fuel, at least the length of the list,
only serves structural termination; see `splitSub_cons`). -/
def splitSubGo (pat : List Char) : Nat → List Char → List (List Char)
  | _, [] => [[]]
  | 0, l => [l]
  | fuel + 1, c :: rest =>
    if pat ≠ [] ∧ pat.isPrefixOf (c :: rest) then
      [] :: splitSubGo pat fuel ((c :: rest).drop pat.length)
    else
      match splitSubGo pat fuel rest with
      | w :: ws => (c :: w) :: ws
      | [] => [[c]]

/-- Python `str.split(sep)` for a non-empty separator, at the character level
(non-overlapping, left-to-right). -/
def splitSub (pat : List Char) (l : List Char) : List (List Char) :=
  splitSubGo pat l.length l

/-- Python `str.split(sep)` on `String`s. -/
def pySplit (s : String) (sep : String) : List String :=
  (splitSub sep.data s.data).map String.mk

/-- Python `pat in s` (substring membership) at the character level. -/
def containsSub (pat : List Char) (l : List Char) : Bool :=
  l.tails.any (fun t => pat.isPrefixOf t)

/-- Python `str.count(pat)` for a single-character pattern. -/
def countC (l : List Char) (c : Char) : Nat := l.countP (fun x => x = c)

/-- Python `_query.count(', ')`: non-overlapping occurrences of comma-space. -/
def countCS : List Char → Nat
  | ',' :: ' ' :: rest => countCS rest + 1
  | _ :: rest => countCS rest
  | [] => 0

/-- Python `_query.count(' ,')`: non-overlapping occurrences of space-comma. -/
def countSC : List Char → Nat
  | ' ' :: ',' :: rest => countSC rest + 1
  | _ :: rest => countSC rest
  | [] => 0

/-- Python `_query.replace(' AND ', ', ')` (left-to-right, non-overlapping). -/
def repAnd : List Char → List Char
  | ' ' :: 'A' :: 'N' :: 'D' :: ' ' :: r => ',' :: ' ' :: repAnd r
  | c :: r => c :: repAnd r
  | [] => []

/-- Python `_query.split(' ')`: split at every single space, keeping empties. -/
def splitCh : List Char → List (List Char)
  | [] => [[]]
  | ' ' :: r => [] :: splitCh r
  | c :: r =>
    match splitCh r with
    | w :: ws => (c :: w) :: ws
    | [] => [[c]]

/-- Python `str.isupper()` restricted to ASCII: at least one cased character and
no lowercase character. -/
def isUpperPy (w : List Char) : Bool :=
  w.any (fun c => c.isAlpha) && w.all (fun c => !c.isAlpha || c.isUpper)

/-! ### Python exceptions -/

/-- The Python exception classes raised by the translated code. -/
inductive PyErr
  | keyError (msg : String)
  | valueError (msg : String)
  | typeError (msg : String)
  | indexError (msg : String)
  | attributeError
  | validationError (msg : String)
  | exception (msg : String)
deriving DecidableEq, Repr

/-! ### Values and documents -/

/-- Python `datetime.datetime` (year, month, day, hour, minute, second, microsecond). -/
structure DT where
  y : Nat
  mo : Nat
  d : Nat
  h : Nat
  mi : Nat
  s : Nat
  us : Nat
deriving DecidableEq, Repr

/-- Single number encoding a datetime; for field values in calendar range this
encoding is strictly monotone in the lexicographic datetime order, so comparing
codes models Python's datetime comparison. -/
def DT.code (t : DT) : Nat :=
  (((((t.y * 100 + t.mo) * 100 + t.d) * 100 + t.h) * 100 + t.mi) * 100 + t.s) * 1000000 + t.us

/-- Python `timestamp.strftime("%Y%m%d%H%M%S%f")` (zero-padded fixed widths, as
on Linux CPython). -/
def DT.strftime (t : DT) : String :=
  zfill 4 (Nat.repr t.y) ++ zfill 2 (Nat.repr t.mo) ++ zfill 2 (Nat.repr t.d) ++
  zfill 2 (Nat.repr t.h) ++ zfill 2 (Nat.repr t.mi) ++ zfill 2 (Nat.repr t.s) ++
  zfill 6 (Nat.repr t.us)

/-- Primitive (scalar) Python values stored in documents. -/
inductive Prim
  | str (s : String)
  | int (n : Int)
  | dt (t : DT)
  | none
  | bool (b : Bool)
  | addr (ip : String) (port : Nat)
  | bytes (s : String)
deriving DecidableEq, Repr

/-- Embedded dictionary of scalars (one `UserStatus` / `Timestamp` record). -/
abbrev SubDoc := List (String × Prim)

/-- A top-level field value: a scalar, an embedded record, or an embedded list
of records (the source's query language supports exactly this depth). -/
inductive FValue
  | prim (p : Prim)
  | sub (d : SubDoc)
  | list (l : List SubDoc)
deriving DecidableEq, Repr

/-- A document: a Python dict from field name to value. -/
abbrev Doc := List (String × FValue)

/-! ### Schema model

`schema.py` declares two pydantic models.  The store (`MessageHandler`)
consults them only through a fixed set of reflection idioms
(`__fields__`, `field_info.description == "MODIFIABLE"`, `type_`,
`get_origin` / `get_args` isinstance checks); these idioms are captured by the
descriptor tables below.  The `accepted` list of a field records exactly which
primitive shapes pass the source's triple `lenient_isinstance` check for that
field's declared type. -/

inductive BaseT
  | bInt
  | bStr
  | bDT
  | bBool
  | bAddr
  | bBytes
  | bNone
deriving DecidableEq, Repr

/-- Runtime type tag of a primitive value. -/
def Prim.baseT : Prim → BaseT
  | .str _ => .bStr
  | .int _ => .bInt
  | .dt _ => .bDT
  | .none => .bNone
  | .bool _ => .bBool
  | .addr _ _ => .bAddr
  | .bytes _ => .bBytes

/-- Descriptor of a scalar field of an embedded record. -/
structure LeafField where
  name : String
  accepted : List BaseT
  opt : Bool
  modifiable : Bool
  dflt : Option Prim
  dfltNow : Bool
deriving DecidableEq, Repr

/-- Shape of a top-level field: scalar, embedded record, or embedded list. -/
inductive FieldShape
  | scalar (accepted : List BaseT)
  | model (sub : List LeafField)
  | listModel (sub : List LeafField)
deriving DecidableEq, Repr

/-- Descriptor of a top-level schema field. -/
structure FieldDef where
  name : String
  shape : FieldShape
  modifiable : Bool
  opt : Bool
  dflt : Option Prim
  dfltNow : Bool
  deriveId : Bool
deriving DecidableEq, Repr

/-- Sub-schema `Timestamp` of schema.py. -/
def timestampSub : List LeafField :=
  [⟨"client_sent", [.bDT], false, false, Option.none, false⟩,
   ⟨"server_received", [.bDT], false, false, Option.none, true⟩]

/-- Sub-schema `UserStatus` of schema.py (`message_sent_at` and
`message_received_at` carry `description="MODIFIABLE"`). -/
def userStatusSub : List LeafField :=
  [⟨"client_name", [.bStr, .bBytes], false, false, Option.none, false⟩,
   ⟨"message_sent_at", [.bDT], true, true, some Prim.none, false⟩,
   ⟨"message_received_at", [.bDT], true, true, some Prim.none, false⟩]

/-- Schema `MessageSchema` of schema.py, in declaration order.  Only
`broadcasted` is MODIFIABLE at the top level; `message_id` runs the
`get_message_id` validator. -/
def messageSchema : List FieldDef :=
  [⟨"header", .scalar [.bInt], false, false, Option.none, false, false⟩,
   ⟨"client_name", .scalar [.bStr], false, false, Option.none, false, false⟩,
   ⟨"timestamps", .model timestampSub, false, false, Option.none, false, false⟩,
   ⟨"message", .scalar [.bStr], false, false, Option.none, false, false⟩,
   ⟨"client_address", .scalar [.bAddr], false, false, Option.none, false, false⟩,
   ⟨"broadcasted", .listModel userStatusSub, true, false, Option.none, false, false⟩,
   ⟨"message_id", .scalar [.bStr], false, true, some Prim.none, false, true⟩]

/-! ### schema.py helper functions -/

/-- Translation of `schema.py is_ipv4`: contains a dot, splits into exactly
four dot-separated parts, and the string with dots removed is a non-empty digit
string (`str.isdigit`). -/
def is_ipv4 (s : String) : Bool :=
  s.data.contains '.' &&
  (splitSub ['.'] s.data).length = 4 &&
  (let digits := s.data.filter (fun c => c ≠ '.')
   !digits.isEmpty && digits.all (fun c => c.isDigit))

/-- Translation of `schema.py is_addr_type` on stored field values: a tuple
`(str, int)` whose string is ipv4-formatted.  The source also accepts bytes
that unpickle to such a tuple; pickled bytes are opaque in the model and are
mapped to `false`. -/
def is_addr_typeF : FValue → Bool
  | .prim (.addr ip _) => is_ipv4 ip
  | _ => false

/-- First datetime among a list of scalar values (dictionary order). -/
def firstDTprim : List Prim → Option DT
  | [] => Option.none
  | .dt t :: _ => some t
  | _ :: r => firstDTprim r

/-- First datetime among top-level field values (dictionary order). -/
def firstDTF : List FValue → Option DT
  | [] => Option.none
  | .prim (.dt t) :: _ => some t
  | _ :: r => firstDTF r

/-- First embedded record among field values (the `lenient_isinstance(v,
(BaseModel, dict))` filter: lists are not dicts and are skipped). -/
def firstSubF : List FValue → Option SubDoc
  | [] => Option.none
  | .sub d :: _ => some d
  | _ :: r => firstSubF r

/-- Translation of `schema.py get_timestamp_value`: the first datetime-typed
value, else recurse into the first embedded record (whose values are scalars,
so the recursion ends there), else the `"No datetime field found."` exception. -/
def get_timestamp_value (vals : List FValue) : Except PyErr DT :=
  match firstDTF vals with
  | some t => .ok t
  | Option.none =>
    match firstSubF vals with
    | some d =>
      match firstDTprim (d.map (fun kv => kv.2)) with
      | some t => .ok t
      | Option.none => .error (.exception "No datetime field found.")
    | Option.none => .error (.exception "No datetime field found.")

/-- Zero-pad each dot-separated octet of an ipv4 string to width 3 and
concatenate, as in `get_message_id`. -/
def ipPad (ip : String) : String :=
  String.join ((pySplit ip ".").map (zfill 3))

/-- Translation of `schema.py get_message_id`: an explicit non-None id is
returned unchanged; otherwise the id is the first-found timestamp rendered by
`strftime` followed by the padded ip octets and the zero-padded port of the
first address-typed value (empty filter result raises IndexError). -/
def get_message_id (message_id : Prim) (values : Doc) : Except PyErr String :=
  match message_id with
  | .none =>
    match get_timestamp_value (values.map (fun kv => kv.2)) with
    | .error e => .error e
    | .ok t =>
      match (values.map (fun kv => kv.2)).filter is_addr_typeF with
      | [] => .error (.indexError "list index out of range")
      | .prim (.addr ip port) :: _ => .ok (t.strftime ++ ipPad ip ++ zfill 6 (Nat.repr port))
      | _ :: _ => .error (.exception "unreachable: is_addr_typeF holds only for addr")
  | .str s => .ok s
  | _ => .error (.typeError "message_id must be str or None")

/-! ### Validation (pydantic boundary)

The spec treats the SchemaValidator as an external collaborator specified only
at its boundary (`validate(schemaName, fields) -> Document | ValidationError`).
The model below realises that boundary over the descriptor tables: extra fields
are forbidden, required fields must be present, values must fit the declared
type (`None` allowed for optional fields, address values must be ipv4 per the
`must_be_ipv4` validators), defaults are filled in, and the output document
lists its fields in schema declaration order, exactly as `.dict()` does. -/

/-- Does a primitive fit a declared scalar type? -/
def acceptsPrim (accepted : List BaseT) (opt : Bool) (p : Prim) : Bool :=
  match p with
  | .none => opt
  | .addr ip _ => accepted.contains .bAddr && is_ipv4 ip
  | _ => accepted.contains p.baseT

/-- Validate the fields of one embedded record against its leaf descriptors,
producing the record in schema order with defaults filled. -/
def validateLeaves (now : DT) (input : SubDoc) : List LeafField → Except PyErr SubDoc
  | [] => .ok []
  | l :: rest =>
    match aget input l.name with
    | some p =>
      if acceptsPrim l.accepted l.opt p then
        match validateLeaves now input rest with
        | .ok r => .ok ((l.name, p) :: r)
        | .error e => .error e
      else .error (.validationError l.name)
    | Option.none =>
      if l.dfltNow then
        match validateLeaves now input rest with
        | .ok r => .ok ((l.name, .dt now) :: r)
        | .error e => .error e
      else
        match l.dflt with
        | some d =>
          match validateLeaves now input rest with
          | .ok r => .ok ((l.name, d) :: r)
          | .error e => .error e
        | Option.none => .error (.validationError l.name)

/-- Validate an embedded record value (extra fields forbidden). -/
def validateSub (now : DT) (sub : List LeafField) (d : SubDoc) : Except PyErr SubDoc :=
  if d.all (fun kv => (sub.map (fun l => l.name)).contains kv.1) then
    validateLeaves now d sub
  else .error (.validationError "extra fields not permitted")

/-- Validate each element of an embedded list of records. -/
def validateSubList (now : DT) (sub : List LeafField) : List SubDoc → Except PyErr (List SubDoc)
  | [] => .ok []
  | d :: rest =>
    match validateSub now sub d with
    | .error e => .error e
    | .ok d₁ =>
      match validateSubList now sub rest with
      | .error e => .error e
      | .ok r => .ok (d₁ :: r)

/-- Validate the top-level fields in schema order, accumulating the already
validated document `acc` (pydantic's `values`, consumed by the `message_id`
validator).  A field validator with `deriveId` runs only when the field was
supplied, mirroring pydantic v1 behaviour for validators without `always`. -/
def validateTop (now : DT) (input : Doc) (acc : Doc) : List FieldDef → Except PyErr Doc
  | [] => .ok acc
  | f :: rest =>
    match aget input f.name with
    | some v =>
      match f.shape, v with
      | .scalar accepted, .prim p =>
        if acceptsPrim accepted f.opt p then
          if f.deriveId then
            match get_message_id p acc with
            | .error e => .error e
            | .ok s => validateTop now input (acc ++ [(f.name, .prim (.str s))]) rest
          else validateTop now input (acc ++ [(f.name, .prim p)]) rest
        else .error (.validationError f.name)
      | .model sub, .sub d =>
        match validateSub now sub d with
        | .error e => .error e
        | .ok d₁ => validateTop now input (acc ++ [(f.name, .sub d₁)]) rest
      | .listModel sub, .list l =>
        match validateSubList now sub l with
        | .error e => .error e
        | .ok l₁ => validateTop now input (acc ++ [(f.name, .list l₁)]) rest
      | _, _ => .error (.validationError f.name)
    | Option.none =>
      if f.dfltNow then validateTop now input (acc ++ [(f.name, .prim (.dt now))]) rest
      else
        match f.dflt with
        | some d => validateTop now input (acc ++ [(f.name, .prim d)]) rest
        | Option.none => .error (.validationError f.name)

/-- The SchemaValidator boundary: `Schema(**fields).dict()`. -/
def validateFields (now : DT) (sc : List FieldDef) (input : Doc) : Except PyErr Doc :=
  if input.all (fun kv => (sc.map (fun f => f.name)).contains kv.1) then
    validateTop now input [] sc
  else .error (.validationError "extra fields not permitted")

/-! ### SortByDate (message_handler.py) -/

/-- Translation of `SortByDate.find_datetime_value_key`: paths (in dictionary
order) of all datetime-typed values, descending one level into embedded
records; embedded lists and other non-dict values raise inside the `try` and
are skipped. -/
def find_datetime_value_key : Doc → List (List String)
  | [] => []
  | (k, v) :: r =>
    (match v with
     | .prim (.dt _) => [[k]]
     | .sub sd =>
       sd.filterMap (fun kv =>
         match kv.2 with
         | .dt _ => some [k, kv.1]
         | _ => Option.none)
     | _ => []) ++ find_datetime_value_key r

/-- Sort key of a document for a frozen key path (`x[k]` or `x[k1][k2]`).
Python's `sorted` compares the datetimes themselves and would raise on a
missing or non-datetime key; the model totalises with `0`, and every theorem
about sorting carries a well-formedness hypothesis making that default
unreachable. -/
def sortKeyCode (keys : List String) (d : Doc) : Nat :=
  match keys with
  | [k] =>
    match aget d k with
    | some (.prim (.dt t)) => t.code
    | _ => 0
  | [k₁, k₂] =>
    match aget d k₁ with
    | some (.sub sd) =>
      match aget sd k₂ with
      | some (.dt t) => t.code
      | _ => 0
    | _ => 0
  | _ => 0

/-- Translation of `SortByDate.sort_by_date`: `sorted(_list, key=...)`, i.e.
the stable sort by the extracted key (stable sorts agree on all inputs, so
insertion sort is a faithful model of Python's timsort). -/
def sort_by_date (l : List Doc) (keys : List String) : List Doc :=
  List.insertionSort (fun a b => sortKeyCode keys a ≤ sortKeyCode keys b) l

/-! ### The store -/

/-- The mutable state of one `MessageHandler`. -/
structure Store where
  waiting_messages : List Doc
  sort_messages_by_date : Bool
  timestamp_key : Option (List String)
deriving DecidableEq, Repr

/-- Fresh `MessageHandler(schema, sort_messages_by_date=flag)`. -/
def mkStore (flag : Bool) : Store :=
  ⟨[], flag, Option.none⟩

/-- The post-validation part of `MessageHandler.append_message`: append at the
tail; when sorting is enabled, freeze `timestamp_key` on first use (first key
path discovered in `waiting_messages[0]`) and re-sort the whole collection.
An empty key list makes the source's `[0]` raise IndexError after the append
(the message stays appended). -/
def appendValidated (st : Store) (message : Doc) : Store × Option PyErr :=
  let msgs := st.waiting_messages ++ [message]
  if st.sort_messages_by_date then
    match st.timestamp_key with
    | some k =>
      ({ st with waiting_messages := sort_by_date msgs k }, Option.none)
    | Option.none =>
      match (find_datetime_value_key (msgs.headD [])).head? with
      | some k =>
        ({ waiting_messages := sort_by_date msgs k,
           sort_messages_by_date := st.sort_messages_by_date,
           timestamp_key := some k }, Option.none)
      | Option.none =>
        ({ st with waiting_messages := msgs }, some (.indexError "list index out of range"))
  else
    ({ st with waiting_messages := msgs }, Option.none)

/-- Translation of `MessageHandler.append_message`: run the validator; re-raise
its error with the store untouched; on success run the append/sort path. -/
def append_message (now : DT) (sc : List FieldDef) (st : Store) (fields : Doc) :
    Store × Option PyErr :=
  match validateFields now sc fields with
  | .error e => (st, some e)
  | .ok message => appendValidated st message

/-! ### Conditions and `__is_in_schema` -/

/-- The six comparison tokens recognised by `__validate_string_condition`. -/
inductive Op
  | eq
  | ne
  | ge
  | le
  | gt
  | lt
deriving DecidableEq, Repr

def Op.ordNat (o : Op) (a b : Nat) : Bool :=
  match o with
  | .ge => decide (b ≤ a)
  | .le => decide (a ≤ b)
  | .gt => decide (b < a)
  | .lt => decide (a < b)
  | _ => false

def Op.ordInt (o : Op) (a b : Int) : Bool :=
  match o with
  | .ge => decide (b ≤ a)
  | .le => decide (a ≤ b)
  | .gt => decide (b < a)
  | .lt => decide (a < b)
  | _ => false

def Op.ordStr (o : Op) (a b : String) : Bool :=
  match o with
  | .ge => decide (b < a) || decide (a = b)
  | .le => decide (a < b) || decide (a = b)
  | .gt => decide (b < a)
  | .lt => decide (a < b)
  | _ => false

/-- Application of an operator-module comparison to two scalars.  Equality and
inequality are total; order comparisons require two values of the same ordered
type and otherwise raise TypeError, as in Python. -/
def Op.apply (o : Op) (a b : Prim) : Except PyErr Bool :=
  match o with
  | .eq => .ok (decide (a = b))
  | .ne => .ok (decide (a ≠ b))
  | _ =>
    match a, b with
    | .int x, .int y => .ok (o.ordInt x y)
    | .str x, .str y => .ok (o.ordStr x y)
    | .dt x, .dt y => .ok (o.ordNat x.code y.code)
    | _, _ => .error (.typeError "comparison not supported between instances")

/-- Comparison of a whole field value with a scalar condition value: a Python
list or dict never equals a scalar, and ordering against one raises TypeError. -/
def applyFV (o : Op) (v : FValue) (b : Prim) : Except PyErr Bool :=
  match v with
  | .prim p => Op.apply o p b
  | _ =>
    match o with
    | .eq => .ok false
    | .ne => .ok true
    | _ => .error (.typeError "comparison not supported between instances")

/-- One entry of the `_cond` dictionary: dotted key, operator, value. -/
structure Cond where
  key : String
  op : Op
  val : Prim
deriving DecidableEq, Repr

/-- Source: `[fname for fname in key.split('.') if fname != '']`. -/
def Cond.fieldPath (c : Cond) : List String :=
  (pySplit c.key ".").filter (fun s => s ≠ "")

def leafKeyList (sub : List LeafField) (checkMod : Bool) : List String :=
  (sub.filter (fun l => !checkMod || l.modifiable)).map (fun l => l.name)

def leafAccepted (sub : List LeafField) (f : String) : List BaseT :=
  match sub.find? (fun l => l.name = f) with
  | some l => l.accepted
  | Option.none => []

def topKeyList (sc : List FieldDef) (checkMod : Bool) : List String :=
  (sc.filter (fun f => !checkMod || f.modifiable)).map (fun f => f.name)

def topAccepted (sc : List FieldDef) (f : String) : List BaseT :=
  match sc.find? (fun g => g.name = f) with
  | some g =>
    match g.shape with
    | .scalar a => a
    | _ => []
  | Option.none => []

def topSub (sc : List FieldDef) (f : String) : Option (List LeafField) :=
  match sc.find? (fun g => g.name = f) with
  | some g =>
    match g.shape with
    | .model s => some s
    | .listModel s => some s
    | .scalar _ => Option.none
  | Option.none => Option.none

/-- Second level of `MessageHandler.__is_in_schema` (inside an embedded
record, whose fields have no further subfields). -/
def isInSchemaLeaf (fields : List String) (sub : List LeafField) (checkMod : Bool)
    (value : Prim) : Except PyErr Unit :=
  match fields with
  | [] => .error (.indexError "list index out of range")
  | f :: rest =>
    if (leafKeyList sub checkMod).contains f then
      match rest with
      | _ :: _ => .error (.keyError "subfield given but field does not have any subfields")
      | [] =>
        if value = Prim.none then .ok ()
        else if (leafAccepted sub f).contains value.baseT then .ok ()
        else .error (.valueError "given value has wrong type")
    else .error (.keyError "field is not modifiable or does not exist in the schema")

/-- Translation of `MessageHandler.__is_in_schema`: check that a (possibly
dotted) field path exists in the schema, optionally restricted to MODIFIABLE
fields, and that a non-None value fits the declared type of the leaf field. -/
def isInSchemaTop (fields : List String) (sc : List FieldDef) (checkMod : Bool)
    (value : Prim) : Except PyErr Unit :=
  match fields with
  | [] => .error (.indexError "list index out of range")
  | f :: rest =>
    if (topKeyList sc checkMod).contains f then
      match rest with
      | [] =>
        if value = Prim.none then .ok ()
        else if (topAccepted sc f).contains value.baseT then .ok ()
        else .error (.valueError "given value has wrong type")
      | _ :: _ =>
        match topSub sc f with
        | some sub => isInSchemaLeaf rest sub checkMod value
        | Option.none => .error (.keyError "subfield given but field does not have any subfields")
    else .error (.keyError "field is not modifiable or does not exist in the schema")

/-! ### get_messages -/

/-- The per-element loop of `get_messages` over an embedded list: each matching
element increments `passing` and contributes its index to `sub_indices`. -/
def scanElems (o : Op) (g : String) (v : Prim) : List SubDoc → Nat → Except PyErr (Nat × List Nat)
  | [], _ => .ok (0, [])
  | e :: rest, j =>
    match aget e g with
    | Option.none => .error (.keyError g)
    | some p =>
      match Op.apply o p v with
      | .error err => .error err
      | .ok b =>
        match scanElems o g v rest (j + 1) with
        | .error err => .error err
        | .ok (n, js) => .ok ((if b then n + 1 else n), (if b then j :: js else js))

/-- The inner condition loop of `get_messages` for one message: total `passing`
count and accumulated `sub_indices` over all conditions, in condition order. -/
def condsMatchMsg (sc : List FieldDef) (msg : Doc) : List Cond → Except PyErr (Nat × List Nat)
  | [] => .ok (0, [])
  | c :: rest =>
    match isInSchemaTop c.fieldPath sc false c.val with
    | .error e => .error e
    | .ok _ =>
      let one : Except PyErr (Nat × List Nat) :=
        match c.fieldPath with
        | [f] =>
          match aget msg f with
          | Option.none => .error (.keyError f)
          | some fv =>
            match applyFV c.op fv c.val with
            | .error e => .error e
            | .ok b => .ok ((if b then 1 else 0), [])
        | [f, g] =>
          match aget msg f with
          | Option.none => .error (.keyError f)
          | some (.list elems) => scanElems c.op g c.val elems 0
          | some (.sub d) =>
            match aget d g with
            | Option.none => .error (.keyError g)
            | some p =>
              match Op.apply c.op p c.val with
              | .error e => .error e
              | .ok b => .ok ((if b then 1 else 0), [])
          | some (.prim _) => .error (.typeError "value is not subscriptable")
        | _ => .error (.valueError "cannot convert given string into a valid path to the field")
      match one with
      | .error e => .error e
      | .ok (n, js) =>
        match condsMatchMsg sc msg rest with
        | .error e => .error e
        | .ok (m, ks) => .ok (n + m, js ++ ks)

def msgKey (d : Doc) : Option FValue := aget d "message_id"

def lastWithKey (k : Option FValue) (l : List Doc) : Doc :=
  match l.reverse.find? (fun d => decide (msgKey d = k)) with
  | some d => d
  | Option.none => []

/-- Source: `list({v["message_id"]: v for v in messages_found}.values())` —
keys keep first-occurrence order, each mapped to the last message carrying it. -/
def dedupById (l : List Doc) : List Doc :=
  (dedupF (l.map msgKey)).map (fun k => lastWithKey k l)

/-- The message loop of `get_messages`: a message is kept iff its total match
count equals the number of conditions; matching list elements contribute
`(i, j)` access points, otherwise the message contributes `(i, None)`. -/
def gmScan (sc : List FieldDef) (conds : List Cond) :
    Nat → List Doc → Except PyErr (List (Nat × Option Nat) × List Doc)
  | _, [] => .ok ([], [])
  | i, m :: rest =>
    match condsMatchMsg sc m conds with
    | .error e => .error e
    | .ok (p, subs) =>
      match gmScan sc conds (i + 1) rest with
      | .error e => .error e
      | .ok (ix, fnd) =>
        if p = conds.length then
          if subs.isEmpty then .ok ((i, Option.none) :: ix, m :: fnd)
          else .ok (subs.map (fun j => (i, some j)) ++ ix, m :: fnd)
        else .ok (ix, fnd)

/-- Translation of `MessageHandler.get_messages` on an explicit `_cond`
dictionary: scan all messages, then deduplicate access points and messages. -/
def get_messages (sc : List FieldDef) (conds : List Cond) (msgs : List Doc) :
    Except PyErr (List (Nat × Option Nat) × List Doc) :=
  match gmScan sc conds 0 msgs with
  | .error e => .error e
  | .ok (ix, fnd) => .ok (dedupF ix, dedupById fnd)

/-! ### update_messages and __update_multiple -/

/-- One access-point write of `update_messages` (the three assignment shapes). -/
def applyAP (atF : Option String) (fieldName : String) (value : Prim) (msgs : List Doc) :
    Nat × Option Nat → Except PyErr (List Doc)
  | (i, j) =>
    match msgs[i]? with
    | Option.none => .error (.indexError "list index out of range")
    | some doc =>
      match atF, j with
      | some a, some jj =>
        match aget doc a with
        | some (.list elems) =>
          match elems[jj]? with
          | some e => .ok (msgs.set i (aset doc a (.list (elems.set jj (aset e fieldName value)))))
          | Option.none => .error (.indexError "list index out of range")
        | some (.sub _) => .error (.keyError "integer key")
        | some (.prim _) => .error (.typeError "value is not subscriptable")
        | Option.none => .error (.keyError a)
      | some a, Option.none =>
        match aget doc a with
        | some (.sub d) => .ok (msgs.set i (aset doc a (.sub (aset d fieldName value))))
        | some (.list _) => .error (.typeError "list indices must be integers")
        | some (.prim _) => .error (.typeError "value does not support item assignment")
        | Option.none => .error (.keyError a)
      | Option.none, _ => .ok (msgs.set i (aset doc fieldName (.prim value)))

/-- The write loop of `update_messages`; a raised error keeps the writes made
before it, as with Python's in-place mutation. -/
def applyAPs (atF : Option String) (fieldName : String) (value : Prim) :
    List (Nat × Option Nat) → List Doc → List Doc × Option PyErr
  | [], m => (m, Option.none)
  | ap :: rest, m =>
    match applyAP atF fieldName value m ap with
    | .error e => (m, some e)
    | .ok m₁ => applyAPs atF fieldName value rest m₁

/-- Translation of `MessageHandler.update_messages` (with `return_indices`):
schema/modifiability/type check first, then resolve access points (reusing
`indices` when supplied and non-empty, since `if not indices:` re-queries on
an empty list), then write. -/
def update_messages (sc : List FieldDef) (fieldName : String) (value : Prim)
    (atF : Option String) (conds : List Cond) (indices : Option (List (Nat × Option Nat)))
    (msgs : List Doc) : List Doc × Option (List (Nat × Option Nat)) × Option PyErr :=
  match isInSchemaTop (atF.toList ++ [fieldName]) sc true value with
  | .error e => (msgs, Option.none, some e)
  | .ok _ =>
    let need : Except PyErr (List (Nat × Option Nat)) :=
      match indices with
      | some ix => if ix.isEmpty then (get_messages sc conds msgs).map (fun r => r.1) else .ok ix
      | Option.none => (get_messages sc conds msgs).map (fun r => r.1)
    match need with
    | .error e => (msgs, Option.none, some e)
    | .ok aps =>
      match applyAPs atF fieldName value aps msgs with
      | (m, some e) => (m, Option.none, some e)
      | (m, Option.none) => (m, some aps, Option.none)

/-- Source: `field.split('=')[0]` then parent/child from the dot split. -/
def parseAssign (item : String) : Option String × String :=
  let field := (pySplit item "=").headD ""
  let parts := pySplit field "."
  if parts.length = 2 then (some (parts.headD ""), parts.getD 1 "")
  else (Option.none, parts.headD "")

/-- The assignment loop of `MessageHandler.__update_multiple`: each assignment
is applied with the access points returned by the previous one; a raised error
aborts the loop, keeping the writes already made. -/
def um_go (sc : List FieldDef) (conds : List Cond) :
    List (String × Prim) → Option (List (Nat × Option Nat)) → List Doc →
    List Doc × Option (List (Nat × Option Nat)) × Option PyErr
  | [], ix, m => (m, ix, Option.none)
  | (item, v) :: rest, ix, m =>
    let pa := parseAssign item
    match update_messages sc pa.2 v pa.1 conds ix m with
    | (m₁, _, some e) => (m₁, Option.none, some e)
    | (m₁, some aps, Option.none) => um_go sc conds rest (some aps) m₁
    | (m₁, Option.none, Option.none) => um_go sc conds rest Option.none m₁

/-- Translation of `MessageHandler.__update_multiple`. -/
def update_multiple (sc : List FieldDef) (items : List String) (values : List Prim)
    (conds : List Cond) (msgs : List Doc) : List Doc × Option PyErr :=
  match um_go sc conds (items.zip values) Option.none msgs with
  | (m, _, e) => (m, e)

/-! ### The textual query language -/

def recognisedOps : List (String × Op) :=
  [("==", .eq), ("!=", .ne), (">=", .ge), ("<=", .le), (">", .gt), ("<", .lt)]

def vscGo (s : String) : List (String × Op) → Option (Op × String × String)
  | [] => Option.none
  | (opStr, o) :: rest =>
    if containsSub opStr.data s.data then
      let parts := pySplit s opStr
      some (o, parts.headD "", parts.getD 1 "")
    else vscGo s rest

/-- Translation of `__validate_string_condition`: first recognised operator
substring wins; returns operator, left-hand side and right-hand side. -/
def validate_string_condition (s : String) : Option (Op × String × String) :=
  vscGo s recognisedOps

/-- Python dict write for the `_cond` dictionary. -/
def condSet (l : List Cond) (c : Cond) : List Cond :=
  match l with
  | [] => [c]
  | c₁ :: r => if c₁.key = c.key then c :: r else c₁ :: condSet r c

def str_to_cond : List (String × Prim) → List Cond → Except PyErr (List Cond)
  | [], acc => .ok acc
  | (item, v) :: rest, acc =>
    match validate_string_condition item with
    | some (o, lhs, _) => str_to_cond rest (condSet acc ⟨lhs, o, v⟩)
    | Option.none => .error (.valueError "non-condition-format found in the query")

/-- Translation of `__str_to_cond_dict` (zip truncates, as in Python). -/
def str_to_cond_dict (items : List String) (values : List Prim) : Except PyErr (List Cond) :=
  str_to_cond (items.zip values) []

/-- The `DELETE WHERE` removal: distinct message indices, highest first. -/
def delete_where_exec (aps : List (Nat × Option Nat)) (msgs : List Doc) : List Doc :=
  if aps.isEmpty then msgs
  else
    let mi := dedupF (aps.map (fun ap => ap.1))
    (List.insertionSort (fun a b : Nat => b ≤ a) mi).foldl (fun m i => m.eraseIdx i) msgs

/-- The per-element deletion loop of `DELETE IN` (`del msgs[i][foi][j]`); a
`None` recipient index raises TypeError, partial deletions survive. -/
def delElemFold (foi : String) : List (Nat × Option Nat) → List Doc → List Doc × Option PyErr
  | [], m => (m, Option.none)
  | (i, oj) :: rest, m =>
    match oj with
    | Option.none => (m, some (.typeError "list indices must be integers"))
    | some j =>
      match m[i]? with
      | Option.none => (m, some (.indexError "list index out of range"))
      | some doc =>
        match aget doc foi with
        | some (.list elems) =>
          if j < elems.length then
            delElemFold foi rest (m.set i (aset doc foi (.list (elems.eraseIdx j))))
          else (m, some (.indexError "list assignment index out of range"))
        | some (.sub _) => (m, some (.keyError "integer key"))
        | some (.prim _) => (m, some (.typeError "object does not support item deletion"))
        | Option.none => (m, some (.keyError foi))

/-- The whole-list clearing loop of `DELETE IN` (`msgs[i][foi].clear()`). -/
def clearFoiFold (foi : String) : List Nat → List Doc → List Doc × Option PyErr
  | [], m => (m, Option.none)
  | i :: rest, m =>
    match m[i]? with
    | Option.none => (m, some (.indexError "list index out of range"))
    | some doc =>
      match aget doc foi with
      | some (.list _) => clearFoiFold foi rest (m.set i (aset doc foi (.list [])))
      | some (.sub _) => clearFoiFold foi rest (m.set i (aset doc foi (.sub [])))
      | some (.prim _) => (m, some .attributeError)
      | Option.none => (m, some (.keyError foi))

/-- Source: `set([k.split('.')[0] for k in _cond.keys() if '.' in k])`. -/
def dottedParents (conds : List Cond) : List String :=
  dedupF ((conds.map (fun c => c.key)).filterMap
    (fun k => if k.data.contains '.' then some ((pySplit k ".").headD "") else Option.none))

/-- The `DELETE IN(foi) WHERE` execution block of `MessageHandler.query`:
exactly one distinct dotted parent among the conditions selects per-element
removal over the reversed access points; otherwise the whole `foi` list of
each matched document is cleared, highest document index first. -/
def delete_in (sc : List FieldDef) (foi : String) (conds : List Cond) (msgs : List Doc) :
    List Doc × Option PyErr :=
  match get_messages sc conds msgs with
  | .error e => (msgs, some e)
  | .ok (aps, _) =>
    if aps.isEmpty then (msgs, Option.none)
    else
      if (dottedParents conds).length = 1 then
        delElemFold foi aps.reverse msgs
      else
        let mi := dedupF (aps.map (fun ap => ap.1))
        clearFoiFold foi (List.insertionSort (fun a b : Nat => b ≤ a) mi) msgs

def allowed_methods : List String := ["GET", "UPDATE", "DELETE", "WHERE", "ALL", "IN"]

/-- Python's ASCII whitespace class `\s`. -/
def isPySpace (c : Char) : Bool :=
  c = ' ' || c = '\t' || c = '\n' || c = '\r' || c = '\x0b' || c = '\x0c'

/-- Characters of the `^[A-Za-z,._\-<>=!(){}\s]+` whitelist. -/
def allowedChar (c : Char) : Bool :=
  c.isAlpha || c = ',' || c = '.' || c = '_' || c = '-' || c = '<' || c = '>' ||
  c = '=' || c = '!' || c = '(' || c = ')' || c = '\x7b' || c = '\x7d' || isPySpace c

def pyIndexOf : List String → String → Except PyErr Nat
  | [], _ => .error (.valueError "x not in list")
  | y :: r, x => if y = x then .ok 0 else (pyIndexOf r x).map (fun n => n + 1)

/-- Result of one `MessageHandler.query` call: the store afterwards, the
retrieved messages of a `GET`, and the raised exception if any.  An early
rejection leaves the store exactly as it was. -/
structure QResult where
  store : List Doc
  retrieved : Option (List Doc)
  err : Option PyErr
deriving DecidableEq, Repr

/-- The validation prefix of `MessageHandler.query`: character whitelist (a
regex match failure on the very first character is Python's AttributeError on
`.group()`), strict comma spacing (`count(',') == count(', ')` and
`count(' ,') == 0`), then — after `' AND '` is rewritten to `', '` — the
uppercase-word whitelist.  Returns the raised exception, if any. -/
def queryChecks (q : String) : Option PyErr :=
  if q.data.isEmpty then some .attributeError
  else if ¬ allowedChar (q.data.headD ' ') then some .attributeError
  else if ¬ q.data.all allowedChar then
    some (.valueError "not allowed characters detected in the query")
  else if ¬ (countC q.data ',' = countCS q.data ∧ countSC q.data = 0) then
    some (.valueError "commas must have space after and no space before")
  else if (splitCh (repAnd q.data)).any
      (fun w => isUpperPy w && !(allowed_methods.contains (String.mk w))) then
    some (.valueError "uppercase word outside the allowed methods")
  else Option.none

/-- Translation of `MessageHandler.query`: the validation prefix, then
dispatch on substring tests of the `' AND '`-rewritten query, in source
order. -/
def query (sc : List FieldDef) (msgs : List Doc) (q : String)
    (updateVal : List Prim) (whereVal : List Prim) : QResult :=
  match queryChecks q with
  | some e => ⟨msgs, Option.none, some e⟩
  | Option.none =>
    let q2 := repAnd q.data
    let ws := splitCh q2
    if containsSub "GET ALL".data q2 then ⟨msgs, some msgs, Option.none⟩
    else if containsSub "DELETE ALL".data q2 then ⟨[], Option.none, Option.none⟩
    else
      let items := ws.map String.mk
      if containsSub "GET WHERE ".data q2 then
        match str_to_cond_dict (items.drop 2) whereVal with
        | .error e => ⟨msgs, Option.none, some e⟩
        | .ok conds =>
          match get_messages sc conds msgs with
          | .error e => ⟨msgs, Option.none, some e⟩
          | .ok (_, fnd) => ⟨msgs, some fnd, Option.none⟩
      else if containsSub "UPDATE ALL ".data q2 then
        match update_multiple sc (items.drop 2) updateVal [] msgs with
        | (m, e) => ⟨m, Option.none, e⟩
      else if containsSub "UPDATE ".data q2 ∧ containsSub " WHERE ".data q2 then
        match pyIndexOf items "WHERE" with
        | .error e => ⟨msgs, Option.none, some e⟩
        | .ok idx =>
          match str_to_cond_dict (items.drop (idx + 1)) whereVal with
          | .error e => ⟨msgs, Option.none, some e⟩
          | .ok conds =>
            match update_multiple sc ((items.drop 1).take (idx - 1)) updateVal conds msgs with
            | (m, e) => ⟨m, Option.none, e⟩
      else if containsSub "DELETE WHERE ".data q2 then
        match str_to_cond_dict (items.drop 2) whereVal with
        | .error e => ⟨msgs, Option.none, some e⟩
        | .ok conds =>
          match get_messages sc conds msgs with
          | .error e => ⟨msgs, Option.none, some e⟩
          | .ok (aps, _) => ⟨delete_where_exec aps msgs, Option.none, Option.none⟩
      else if containsSub "DELETE IN(".data q2 ∧ containsSub ") WHERE ".data q2 then
        let foi := String.mk (((items.getD 1 "").data.drop 3).dropLast)
        match str_to_cond_dict (items.drop 3) whereVal with
        | .error e => ⟨msgs, Option.none, some e⟩
        | .ok conds =>
          match delete_in sc foi conds msgs with
          | (m, e) => ⟨m, Option.none, e⟩
      else ⟨msgs, Option.none, some (.exception "cannot find an action for given query")⟩

/-! ### The inbound ack handler and dispatcher queries (server.py) -/

/-- The exact query string issued by `Server.handle_incoming_messages` on a
MESSAGE_RECEIVED_RESPONSE. -/
def ack_query_string : String :=
  "UPDATE broadcasted.message_received_at=\x7b\x7d WHERE message_id==\x7b\x7d, broadcasted.client_name==\x7b\x7d"

/-- The inbound handler's reaction to an acknowledgement naming a message id
and a sender username (server.py lines 481-492). -/
def handle_received_ack (msgs : List Doc) (client_sent_at : DT) (mid uname : String) : QResult :=
  query messageSchema msgs ack_query_string [.dt client_sent_at] [.str mid, .str uname]

/-- The scan query of `Server.__send_messages` for pending recipients. -/
def dispatch_scan_query : String := "GET WHERE broadcasted.message_sent_at==\x7b\x7d"

/-- One dispatcher read of the store for messages with an unsent recipient. -/
def dispatch_scan (msgs : List Doc) : QResult :=
  query messageSchema msgs dispatch_scan_query [] [.none]

/-! ### slice_string.py -/

/-- Values produced by `slice_string`: int, float (kept as its literal text,
since the claims never compute with floats), or str. -/
inductive PyVal
  | i (n : Int)
  | f (lit : String)
  | s (v : String)
deriving DecidableEq, Repr

/-- Python `str.isdigit` for ASCII digit strings. -/
def isdigitStr (l : List Char) : Bool := !l.isEmpty && l.all (fun c => c.isDigit)

/-- Python `int(s)` restricted to the unsigned digit strings reachable from
`slice_string` (slices of an all-digit input); `int("")` raises ValueError. -/
def pyIntParse (s : String) : Except PyErr Int :=
  if isdigitStr s.data then
    .ok ((s.data.foldl (fun a c => a * 10 + (c.toNat - 48)) 0 : Nat) : Int)
  else .error (.valueError "invalid literal for int with base ten")

/-- Python `float(s)` acceptance for the digit-and-dot strings reachable from
`slice_string`: at least one digit, at most one dot. -/
def pyFloatOk (l : List Char) : Bool :=
  l.any (fun c => c.isDigit) && l.all (fun c => c.isDigit || c = '.') &&
  l.countP (fun c => c = '.') ≤ 1

def pyFloatParse (s : String) : Except PyErr PyVal :=
  if pyFloatOk s.data then .ok (.f s) else .error (.valueError "could not convert string to float")

/-- The contiguous extraction loop of `slice_string`. -/
def rawSlices (l : List Char) : List Nat → Nat → List (List Char)
  | [], _ => []
  | n :: rest, startAt => (l.drop startAt).take n :: rawSlices l rest (startAt + n)

/-- The conversion type chosen once for the whole string. -/
inductive ConvTy
  | cInt
  | cFloat
  | cStr
deriving DecidableEq, Repr

def inferTy (l : List Char) (supportMixed forceStr : Bool) : ConvTy :=
  if forceStr then .cStr
  else if supportMixed then .cStr
  else if isdigitStr l then .cInt
  else if (splitSub ['.'] l).all (fun p => isdigitStr p) then .cFloat
  else .cStr

/-- The regex `^-?\d+(?:\.\d+)$` of the mixed-dtype branch. -/
def mixedFloatRe (l : List Char) : Bool :=
  let core := match l with
    | '-' :: r => r
    | _ => l
  match splitSub ['.'] core with
  | [a, b] => isdigitStr a && isdigitStr b
  | _ => false

def convertSlice (ty : ConvTy) (supportMixed : Bool) (slice : List Char) : Except PyErr PyVal :=
  let base : Except PyErr PyVal :=
    match ty with
    | .cInt => (pyIntParse (String.mk slice)).map (fun n => PyVal.i n)
    | .cFloat => pyFloatParse (String.mk slice)
    | .cStr => .ok (.s (String.mk slice))
  match base with
  | .error e => .error e
  | .ok b =>
    if supportMixed then
      if isdigitStr slice then (pyIntParse (String.mk slice)).map (fun n => PyVal.i n)
      else if mixedFloatRe slice then .ok (.f (String.mk slice))
      else .ok b
    else .ok b

def convertAll (ty : ConvTy) (supportMixed : Bool) : List (List Char) → Except PyErr (List PyVal)
  | [] => .ok []
  | s :: rest =>
    match convertSlice ty supportMixed s with
    | .error e => .error e
    | .ok v =>
      match convertAll ty supportMixed rest with
      | .error e => .error e
      | .ok r => .ok (v :: r)

/-- Translation of `slice_string.slice_string` (slice lengths and start offset
as naturals, as in every call site of the repository). -/
def slice_string (s : String) (slice_lengths : List Nat) (start_at : Nat)
    (support_mixed_dtype force_str : Bool) : Except PyErr (List PyVal) :=
  if s.data.length < start_at + slice_lengths.sum then
    .error (.indexError "start_at and slice_lengths add up to more than the string length")
  else
    convertAll (inferTy s.data support_mixed_dtype force_str) support_mixed_dtype
      (rawSlices s.data slice_lengths start_at)



/-- Claim-side predicate: the string contains a comma not immediately followed
by a space (scanning left to right, in step with `countCS`). -/
def hasCommaNoSpace : List Char → Bool
  | ',' :: ' ' :: rest => hasCommaNoSpace rest
  | ',' :: _ => true
  | _ :: rest => hasCommaNoSpace rest
  | [] => false

/-- Claim-side predicate: the string contains a comma immediately preceded by
a space. -/
def hasSpaceComma : List Char → Bool
  | ' ' :: ',' :: _ => true
  | _ :: rest => hasSpaceComma rest
  | [] => false

theorem countCS_le_countC (l : List Char) : countCS l ≤ countC l ',' := by
  induction l using countCS.induct with
  | case1 rest ih =>
    simp [countCS, countC, List.countP_cons]
    simp only [countC] at ih
    omega
  | case2 head rest h ih =>
    rw [countCS.eq_2 head rest h]
    simp [countC, List.countP_cons]
    simp only [countC] at ih
    omega
  | case3 => simp [countCS, countC]

theorem countCS_lt_of_hasCommaNoSpace (l : List Char) (h : hasCommaNoSpace l = true) :
    countCS l < countC l ',' := by
  induction l using countCS.induct with
  | case1 rest ih =>
    have hh : hasCommaNoSpace rest = true := by simpa [hasCommaNoSpace] using h
    have := ih hh
    simp [countCS, countC, List.countP_cons]
    simp only [countC] at this
    omega
  | case2 head rest h1 ih =>
    by_cases hc : head = ','
    · subst hc
      rw [countCS.eq_2 _ _ h1]
      have := countCS_le_countC rest
      simp [countC, List.countP_cons]
      simp only [countC] at this
      omega
    · have hh : hasCommaNoSpace rest = true := by
        rw [hasCommaNoSpace.eq_3 head rest h1 (fun he => hc he)] at h
        exact h
      have := ih hh
      rw [countCS.eq_2 _ _ h1]
      simp [countC, List.countP_cons, hc]
      simp only [countC] at this
      omega
  | case3 => simp [hasCommaNoSpace] at h

theorem countSC_pos_of_hasSpaceComma (l : List Char) (h : hasSpaceComma l = true) :
    0 < countSC l := by
  induction l using countSC.induct with
  | case1 rest ih => simp [countSC]
  | case2 head rest h1 ih =>
    have hh : hasSpaceComma rest = true := by
      rw [hasSpaceComma.eq_2 head rest h1] at h
      exact h
    rw [countSC.eq_2 head rest h1]
    exact ih hh
  | case3 => simp [hasSpaceComma] at h



theorem splitCh_ne_nil (l : List Char) : splitCh l ≠ [] := by
  induction l using splitCh.induct with
  | case1 => simp [splitCh]
  | case2 r ih => simp [splitCh]
  | case3 c r hc w ws hr ih => simp [splitCh.eq_3 c r hc, hr]
  | case4 c r hc hr ih => simp [splitCh.eq_3 c r hc, hr]

theorem splitCh_space (r : List Char) : splitCh (' ' :: r) = [] :: splitCh r := by
  simp [splitCh]

theorem splitCh_cons_of (c : Char) (r w : List Char) (ws : List (List Char))
    (hc : c ≠ ' ') (he : splitCh r = w :: ws) : splitCh (c :: r) = (c :: w) :: ws := by
  rw [splitCh.eq_3 c r (fun h => hc h), he]

/-- Decomposition of the first word produced by `splitCh`. -/
theorem splitCh_head_decomp (r : List Char) :
    ∀ w tl, splitCh r = w :: tl →
      (r = w ∧ tl = []) ∨ ∃ r₃, r = w ++ ' ' :: r₃ ∧ tl = splitCh r₃ := by
  induction r using splitCh.induct with
  | case1 =>
    intro w tl h
    rw [show splitCh [] = [[]] from rfl] at h
    obtain ⟨rfl, rfl⟩ := List.cons_eq_cons.mp h.symm
    exact Or.inl ⟨rfl, rfl⟩
  | case2 r ih =>
    intro w tl h
    rw [splitCh_space] at h
    obtain ⟨rfl, rfl⟩ := List.cons_eq_cons.mp h.symm
    exact Or.inr ⟨r, rfl, rfl⟩
  | case3 c r hc w₁ ws₁ hr ih =>
    intro w tl h
    rw [splitCh_cons_of c r w₁ ws₁ (fun he => hc he) hr] at h
    obtain ⟨hw, htl⟩ := List.cons_eq_cons.mp h.symm
    rcases ih w₁ ws₁ hr with ⟨h1, h2⟩ | ⟨r₃, h1, h2⟩
    · exact Or.inl ⟨by rw [hw, h1], by rw [htl, h2]⟩
    · exact Or.inr ⟨r₃, by rw [hw, h1]; rfl, by rw [htl, h2]⟩
  | case4 c r hc hr ih =>
    exact absurd hr (splitCh_ne_nil r)



/-- A word whose alphabetic characters are only O and R, containing O: such a
word is uppercase in Python's sense and outside the verb whitelist. -/
def goodORword (w : List Char) : Prop :=
  'O' ∈ w ∧ ∀ c ∈ w, c.isAlpha = true → c = 'O' ∨ c = 'R'

instance (w : List Char) : Decidable (goodORword w) := by
  unfold goodORword
  infer_instance

theorem repAnd_space_shape (r : List Char) :
    (∃ z, repAnd (' ' :: r) = ',' :: ' ' :: z) ∨ (∃ z, repAnd (' ' :: r) = ' ' :: z) := by
  by_cases h : r.take 4 = ['A', 'N', 'D', ' ']
  · left
    have hr : r = 'A' :: 'N' :: 'D' :: ' ' :: r.drop 4 := by
      conv_lhs => rw [← List.take_append_drop 4 r]
      rw [h]
      rfl
    rw [hr, repAnd.eq_1]
    exact ⟨_, rfl⟩
  · right
    refine ⟨repAnd r, ?_⟩
    apply repAnd.eq_2
    intro r₁ _ hr₁
    apply h
    rw [hr₁]
    rfl

theorem repAnd_cons_ne_space (c : Char) (r : List Char) (hc : c ≠ ' ') :
    repAnd (c :: r) = c :: repAnd r := by
  apply repAnd.eq_2
  intro r₁ h₁ _
  exact hc h₁

theorem orWord_survives (l : List Char) :
    (['O', 'R'] ∈ splitCh l → ∃ w ∈ splitCh (repAnd l), goodORword w) ∧
    (['O', 'R'] ∈ (splitCh l).tail → ∃ w ∈ (splitCh (repAnd l)).tail, goodORword w) := by
  induction l using repAnd.induct with
  | case3 =>
    constructor <;> intro hm <;> exact absurd hm (by decide)
  | case1 r ih =>
    have e1 : splitCh (' ' :: r) = [] :: splitCh r := splitCh_space r
    have e2 : splitCh ('D' :: ' ' :: r) = ['D'] :: splitCh r :=
      splitCh_cons_of _ _ _ _ (by decide) e1
    have e3 : splitCh ('N' :: 'D' :: ' ' :: r) = ['N', 'D'] :: splitCh r :=
      splitCh_cons_of _ _ _ _ (by decide) e2
    have e4 : splitCh ('A' :: 'N' :: 'D' :: ' ' :: r) = ['A', 'N', 'D'] :: splitCh r :=
      splitCh_cons_of _ _ _ _ (by decide) e3
    have e5 : splitCh (' ' :: 'A' :: 'N' :: 'D' :: ' ' :: r) =
        [] :: ['A', 'N', 'D'] :: splitCh r := by
      rw [splitCh_space, e4]
    have f1 : splitCh (' ' :: repAnd r) = [] :: splitCh (repAnd r) := splitCh_space _
    have f2 : splitCh (',' :: ' ' :: repAnd r) = [','] :: splitCh (repAnd r) :=
      splitCh_cons_of _ _ _ _ (by decide) f1
    constructor
    · intro hm
      rw [e5] at hm
      simp only [List.mem_cons] at hm
      rcases hm with h1 | h1 | h1
      · exact absurd h1 (by decide)
      · exact absurd h1 (by decide)
      · obtain ⟨w, hwmem, hg⟩ := ih.1 h1
        refine ⟨w, ?_, hg⟩
        rw [repAnd.eq_1, f2]
        exact List.mem_cons_of_mem _ hwmem
    · intro hm
      rw [e5] at hm
      simp only [List.tail_cons, List.mem_cons] at hm
      rcases hm with h1 | h1
      · exact absurd h1 (by decide)
      · obtain ⟨w, hwmem, hg⟩ := ih.1 h1
        refine ⟨w, ?_, hg⟩
        rw [repAnd.eq_1, f2]
        simpa using hwmem
  | case2 c r h ih =>
    have rep2 : repAnd (c :: r) = c :: repAnd r := repAnd.eq_2 c r h
    by_cases hcsp : c = ' '
    · subst hcsp
      constructor
      · intro hm
        rw [splitCh_space] at hm
        simp only [List.mem_cons] at hm
        rcases hm with h1 | h1
        · exact absurd h1 (by decide)
        · obtain ⟨w, hwmem, hg⟩ := ih.1 h1
          refine ⟨w, ?_, hg⟩
          rw [rep2, splitCh_space]
          exact List.mem_cons_of_mem _ hwmem
      · intro hm
        rw [splitCh_space, List.tail_cons] at hm
        obtain ⟨w, hwmem, hg⟩ := ih.1 hm
        refine ⟨w, ?_, hg⟩
        rw [rep2, splitCh_space, List.tail_cons]
        exact hwmem
    · obtain ⟨w0, ws0, hw0⟩ : ∃ w0 ws0, splitCh r = w0 :: ws0 := by
        cases he : splitCh r with
        | nil => exact absurd he (splitCh_ne_nil r)
        | cons a b => exact ⟨a, b, rfl⟩
      obtain ⟨w1, ws1, hw1⟩ : ∃ w1 ws1, splitCh (repAnd r) = w1 :: ws1 := by
        cases he : splitCh (repAnd r) with
        | nil => exact absurd he (splitCh_ne_nil _)
        | cons a b => exact ⟨a, b, rfl⟩
      have g0 : splitCh (c :: r) = (c :: w0) :: ws0 := splitCh_cons_of _ _ _ _ hcsp hw0
      have g1 : splitCh (c :: repAnd r) = (c :: w1) :: ws1 := splitCh_cons_of _ _ _ _ hcsp hw1
      constructor
      · intro hm
        rw [g0] at hm
        simp only [List.mem_cons] at hm
        rcases hm with heq | h1
        · -- the OR word is the head word: c = 'O', w0 = ['R']
          obtain ⟨hc', hw'⟩ := List.cons_eq_cons.mp heq.symm
          subst hc'
          rw [hw'] at hw0
          rcases splitCh_head_decomp r ['R'] ws0 hw0 with ⟨hr, _⟩ | ⟨r₃, hr, _⟩
          · subst hr
            decide
          · subst hr
            simp only [List.cons_append, List.nil_append] at rep2 ⊢
            have hr2 : repAnd ('R' :: ' ' :: r₃) = 'R' :: repAnd (' ' :: r₃) :=
              repAnd_cons_ne_space _ _ (by decide)
            rcases repAnd_space_shape r₃ with ⟨z, hz⟩ | ⟨z, hz⟩
            · have s1 : splitCh (' ' :: z) = [] :: splitCh z := splitCh_space z
              have s2 : splitCh (',' :: ' ' :: z) = [','] :: splitCh z :=
                splitCh_cons_of _ _ _ _ (by decide) s1
              have s3 : splitCh ('R' :: ',' :: ' ' :: z) = ['R', ','] :: splitCh z :=
                splitCh_cons_of _ _ _ _ (by decide) s2
              have s4 : splitCh ('O' :: 'R' :: ',' :: ' ' :: z) = ['O', 'R', ','] :: splitCh z :=
                splitCh_cons_of _ _ _ _ (by decide) s3
              refine ⟨['O', 'R', ','], ?_, by decide⟩
              rw [rep2, hr2, hz, s4]
              exact List.mem_cons_self _ _
            · have s1 : splitCh (' ' :: z) = [] :: splitCh z := splitCh_space z
              have s3 : splitCh ('R' :: ' ' :: z) = ['R'] :: splitCh z :=
                splitCh_cons_of _ _ _ _ (by decide) s1
              have s4 : splitCh ('O' :: 'R' :: ' ' :: z) = ['O', 'R'] :: splitCh z :=
                splitCh_cons_of _ _ _ _ (by decide) s3
              refine ⟨['O', 'R'], ?_, by decide⟩
              rw [rep2, hr2, hz, s4]
              exact List.mem_cons_self _ _
        · have h2 : ['O', 'R'] ∈ (splitCh r).tail := by
            rw [hw0]
            exact h1
          obtain ⟨w, hwmem, hg⟩ := ih.2 h2
          rw [hw1, List.tail_cons] at hwmem
          refine ⟨w, ?_, hg⟩
          rw [rep2, g1]
          exact List.mem_cons_of_mem _ hwmem
      · intro hm
        rw [g0, List.tail_cons] at hm
        have h2 : ['O', 'R'] ∈ (splitCh r).tail := by
          rw [hw0]
          exact hm
        obtain ⟨w, hwmem, hg⟩ := ih.2 h2
        rw [hw1, List.tail_cons] at hwmem
        refine ⟨w, ?_, hg⟩
        rw [rep2, g1, List.tail_cons]
        exact hwmem



theorem goodORword_flagged (w : List Char) (h : goodORword w) :
    isUpperPy w = true ∧ allowed_methods.contains (String.mk w) = false := by
  obtain ⟨hO, hal⟩ := h
  constructor
  · simp only [isUpperPy, Bool.and_eq_true, List.any_eq_true, List.all_eq_true]
    refine ⟨⟨'O', hO, by decide⟩, ?_⟩
    intro c hc
    by_cases ha : c.isAlpha = true
    · rcases hal c hc ha with rfl | rfl <;> decide
    · have hf : c.isAlpha = false := by
        revert ha
        cases c.isAlpha <;> simp
      simp [hf]
  · by_contra hcon
    have hmem : String.mk w ∈ allowed_methods := by
      have ht : allowed_methods.contains (String.mk w) = true := by
        revert hcon
        cases allowed_methods.contains (String.mk w) <;> simp
      simpa using ht
    simp only [allowed_methods, List.mem_cons, List.not_mem_nil, or_false] at hmem
    rcases hmem with h1 | h1 | h1 | h1 | h1 | h1 <;>
      (have hw : w = (String.mk w).data := rfl
       rw [h1] at hw
       subst hw
       exact absurd hO (by decide))

/-- Any query flagged by one of the claim's rejection conditions makes
`queryChecks` raise. -/
theorem queryChecks_some_of_bad (q : String)
    (h : hasCommaNoSpace q.data = true ∨ hasSpaceComma q.data = true ∨
      (∃ w ∈ splitCh (repAnd q.data), isUpperPy w = true ∧
        allowed_methods.contains (String.mk w) = false) ∨
      ['O', 'R'] ∈ splitCh q.data ∨
      (∃ c ∈ q.data, allowedChar c = false)) :
    ∃ e, queryChecks q = some e := by
  unfold queryChecks
  by_cases h1 : q.data.isEmpty = true
  · exact ⟨.attributeError, by rw [if_pos h1]⟩
  rw [if_neg h1]
  by_cases h2 : allowedChar (q.data.headD ' ') = true
  case neg => exact ⟨.attributeError, by rw [if_pos h2]⟩
  rw [if_neg (not_not_intro h2)]
  by_cases h3 : q.data.all allowedChar = true
  case neg =>
    exact ⟨.valueError "not allowed characters detected in the query", by rw [if_pos h3]⟩
  rw [if_neg (not_not_intro h3)]
  by_cases h4 : countC q.data ',' = countCS q.data ∧ countSC q.data = 0
  case neg =>
    exact ⟨.valueError "commas must have space after and no space before", by rw [if_pos h4]⟩
  rw [if_neg (not_not_intro h4)]
  by_cases h5 : (splitCh (repAnd q.data)).any
      (fun w => isUpperPy w && !(allowed_methods.contains (String.mk w))) = true
  case pos =>
    exact ⟨.valueError "uppercase word outside the allowed methods", by rw [if_pos h5]⟩
  exfalso
  rcases h with hb | hb | hb | hb | hb
  · have := countCS_lt_of_hasCommaNoSpace _ hb
    omega
  · have := countSC_pos_of_hasSpaceComma _ hb
    omega
  · obtain ⟨w, hwmem, hup, hcon⟩ := hb
    apply h5
    simp only [List.any_eq_true]
    refine ⟨w, hwmem, ?_⟩
    rw [hup, hcon]
    decide
  · obtain ⟨w, hwmem, hg⟩ := (orWord_survives q.data).1 hb
    obtain ⟨hup, hcon⟩ := goodORword_flagged w hg
    apply h5
    simp only [List.any_eq_true]
    refine ⟨w, hwmem, ?_⟩
    rw [hup, hcon]
    decide
  · obtain ⟨c, hcmem, hcf⟩ := hb
    have := List.all_eq_true.mp h3 c hcmem
    rw [hcf] at this
    exact absurd this (by decide)

/-- A raised check exception leaves the store untouched and returns nothing. -/
theorem query_of_checks_some (sc : List FieldDef) (msgs : List Doc) (q : String)
    (uv wv : List Prim) (e : PyErr) (h : queryChecks q = some e) :
    query sc msgs q uv wv = ⟨msgs, Option.none, some e⟩ := by
  unfold query
  rw [h]

/-! ### Concrete fixtures (validated peer messages in `.dict()` form) -/

def dt₁ : DT := ⟨2022, 11, 1, 22, 20, 10, 294⟩

def dt₂ : DT := ⟨2022, 11, 1, 22, 20, 11, 1261⟩

def dt₃ : DT := ⟨2022, 11, 1, 22, 20, 12, 100⟩

/-- A pending `UserStatus` record: not yet sent, not yet acknowledged. -/
def recipPending (nm : String) : SubDoc :=
  [("client_name", .str nm), ("message_sent_at", Prim.none), ("message_received_at", Prim.none)]

/-- A validated peer message with the given id, sender and recipient list. -/
def docVal (mid nm : String) (t : DT) (rs : List SubDoc) : Doc :=
  [("header", .prim (.int 12)),
   ("client_name", .prim (.str nm)),
   ("timestamps", .sub [("client_sent", .dt t), ("server_received", .dt dt₂)]),
   ("message", .prim (.str "Hello")),
   ("client_address", .prim (.addr "127.0.0.1" 5050)),
   ("broadcasted", .list rs),
   ("message_id", .prim (.str mid))]

/-! ### Claim C1 -/

def c1doc : Doc := docVal "idA" "John" dt₁ [recipPending "Mike", recipPending "Anna"]

def c1cond : Cond := ⟨"broadcasted.message_sent_at", .eq, Prim.none⟩

/-- Claim C1 (code_bug evidence).  The single path condition
`broadcasted.message_sent_at == None` is satisfied by both recipient entries of
`c1doc` (third and fourth conjuncts), so by C1 the document should be found
with one access point per matching element; but `get_messages` compares the
total match count (2) with the number of conditions (1) and returns nothing,
and the dispatcher scan built on it consequently retrieves no message. -/
theorem c1_multimatch_not_found :
    get_messages messageSchema [c1cond] [c1doc] = .ok ([], []) ∧
    (dispatch_scan [c1doc]).retrieved = some [] ∧
    aget (recipPending "Mike") "message_sent_at" = some Prim.none ∧
    aget (recipPending "Anna") "message_sent_at" = some Prim.none ∧
    aget c1doc "broadcasted" = some (.list [recipPending "Mike", recipPending "Anna"]) :=
  ⟨rfl, rfl, rfl, rfl, rfl⟩

/-! ### Claim C3 -/

def c3doc : Doc := docVal "idB" "John" dt₁ [recipPending "Mike"]

/-- The store after the premature acknowledgement: `message_received_at` is
set while `message_sent_at` is still None. -/
def c3docAfter : Doc :=
  docVal "idB" "John" dt₁
    [[("client_name", .str "Mike"), ("message_sent_at", Prim.none),
      ("message_received_at", .dt dt₃)]]

/-- Claim C3 (code_bug evidence).  Starting from a reachable store state (one
appended message whose only recipient is pending), processing a
message-received acknowledgement for that recipient succeeds and produces a
RecipientStatus with `message_received_at` non-null while `message_sent_at` is
still null: the inbound handler's UPDATE filters only on `message_id` and
`broadcasted.client_name`, never on `message_sent_at`. -/
theorem c3_ack_violates_no_premature_ack :
    (handle_received_ack [c3doc] dt₃ "idB" "Mike").err = Option.none ∧
    (handle_received_ack [c3doc] dt₃ "idB" "Mike").store = [c3docAfter] ∧
    aget c3docAfter "broadcasted" =
      some (.list [[("client_name", .str "Mike"), ("message_sent_at", Prim.none),
                    ("message_received_at", .dt dt₃)]]) :=
  ⟨rfl, rfl, rfl⟩

/-! ### Claims C6 and C10 -/

theorem allowedChar_isDigit_false (c : Char) (h : allowedChar c = true) : c.isDigit = false := by
  simp only [allowedChar, isPySpace, Bool.or_eq_true, decide_eq_true_eq, or_assoc] at h
  rcases h with h | rfl | rfl | rfl | rfl | rfl | rfl | rfl | rfl | rfl | rfl | rfl | rfl | rfl |
    rfl | rfl | rfl | rfl | rfl
  · simp only [Char.isAlpha, Char.isUpper, Char.isLower, Bool.or_eq_true, Bool.and_eq_true,
      decide_eq_true_eq, UInt32.le_def, BitVec.le_def] at h
    simp only [Char.isDigit, Bool.and_eq_false_iff, decide_eq_false_iff_not, UInt32.le_def,
      BitVec.le_def]
    simp only [show ((48 : UInt32).toBitVec).toNat = 48 from by decide,
      show ((57 : UInt32).toBitVec).toNat = 57 from by decide,
      show ((65 : UInt32).toBitVec).toNat = 65 from by decide,
      show ((90 : UInt32).toBitVec).toNat = 90 from by decide,
      show ((97 : UInt32).toBitVec).toNat = 97 from by decide,
      show ((122 : UInt32).toBitVec).toNat = 122 from by decide] at h ⊢
    omega
  all_goals decide

theorem isDigit_allowedChar_false (c : Char) (h : c.isDigit = true) : allowedChar c = false := by
  cases hac : allowedChar c with
  | false => rfl
  | true =>
    rw [allowedChar_isDigit_false c hac] at h
    cases h

/-- Claim C6.  A query containing a comma not followed by a space or preceded
by a space, or (after `' AND '` is rewritten to a comma) an uppercase word
outside the GET/UPDATE/DELETE/WHERE/ALL/IN whitelist — in particular any query
with the token OR — or a character outside the allowed character set, is
rejected with an error before any store access: the store is returned
unchanged and nothing is retrieved. -/
theorem c6_malformed_query_rejected (sc : List FieldDef) (msgs : List Doc) (q : String)
    (uv wv : List Prim)
    (h : hasCommaNoSpace q.data = true ∨ hasSpaceComma q.data = true ∨
      (∃ w ∈ splitCh (repAnd q.data), isUpperPy w = true ∧
        allowed_methods.contains (String.mk w) = false) ∨
      ['O', 'R'] ∈ splitCh q.data ∨
      (∃ c ∈ q.data, allowedChar c = false)) :
    ∃ e, query sc msgs q uv wv = ⟨msgs, Option.none, some e⟩ := by
  obtain ⟨e, he⟩ := queryChecks_some_of_bad q h
  exact ⟨e, query_of_checks_some sc msgs q uv wv e he⟩

/-- Witness for C6 at a concrete input: a query using the OR token is rejected
and the store (here a one-message store) is left unchanged. -/
theorem c6_malformed_query_rejected_witness :
    ∃ e, query messageSchema [c1doc] "GET WHERE client_name==\x7b\x7d OR message==\x7b\x7d"
      [] [.str "John", .str "Hi"] = ⟨[c1doc], Option.none, some e⟩ :=
  c6_malformed_query_rejected messageSchema [c1doc] _ [] [.str "John", .str "Hi"]
    (Or.inr (Or.inr (Or.inr (Or.inl (by decide)))))

/-- Claim C10.  Decimal digits are outside the allowed character set, so every
query string containing one is rejected with an error before any store access
(numeric literals can therefore never be inlined into a query). -/
theorem c10_digit_query_rejected (sc : List FieldDef) (msgs : List Doc) (q : String)
    (uv wv : List Prim) (h : ∃ c ∈ q.data, c.isDigit = true) :
    ∃ e, query sc msgs q uv wv = ⟨msgs, Option.none, some e⟩ := by
  obtain ⟨c, hc, hd⟩ := h
  obtain ⟨e, he⟩ := queryChecks_some_of_bad q
    (Or.inr (Or.inr (Or.inr (Or.inr ⟨c, hc, isDigit_allowedChar_false c hd⟩))))
  exact ⟨e, query_of_checks_some sc msgs q uv wv e he⟩

/-- Witness for C10 at a concrete input: an id fragment with a digit inlined
into the query text. -/
theorem c10_digit_query_rejected_witness :
    ∃ e, query messageSchema [c1doc] "GET WHERE message_id==m0" [] [] =
      ⟨[c1doc], Option.none, some e⟩ :=
  c10_digit_query_rejected messageSchema [c1doc] "GET WHERE message_id==m0" [] []
    ⟨'0', by decide, by decide⟩



theorem rawSlices_length (l : List Char) (lens : List Nat) (st : Nat) :
    (rawSlices l lens st).length = lens.length := by
  induction lens generalizing st with
  | nil => rfl
  | cons n rest ih => simp [rawSlices, ih]

theorem rawSlices_join (l : List Char) (lens : List Nat) (st : Nat) :
    (rawSlices l lens st).flatten = (l.drop st).take lens.sum := by
  induction lens generalizing st with
  | nil => simp [rawSlices]
  | cons n rest ih =>
    simp only [rawSlices, List.flatten_cons, List.sum_cons, ih]
    rw [List.take_add, List.drop_drop]

theorem convertAll_length (ty : ConvTy) (sm : Bool) (ls : List (List Char)) (vals : List PyVal)
    (h : convertAll ty sm ls = .ok vals) : vals.length = ls.length := by
  induction ls generalizing vals with
  | nil =>
    simp only [convertAll] at h
    cases h
    rfl
  | cons s rest ih =>
    simp only [convertAll] at h
    cases hc : convertSlice ty sm s with
    | error e => rw [hc] at h; cases h
    | ok v =>
      rw [hc] at h
      cases hr : convertAll ty sm rest with
      | error e => rw [hr] at h; cases h
      | ok r =>
        rw [hr] at h
        cases h
        simp [ih r hr]

theorem convertSlice_false_err (ty : ConvTy) (s : List Char) (e : PyErr)
    (h : convertSlice ty false s = .error e) : ∃ m, e = .valueError m := by
  unfold convertSlice at h
  cases ty with
  | cInt =>
    simp only [pyIntParse, Except.map] at h
    by_cases hd : isdigitStr s = true
    · rw [if_pos hd] at h
      simp at h
    · rw [if_neg hd] at h
      simp at h
      exact ⟨_, h.symm⟩
  | cFloat =>
    simp only [pyFloatParse] at h
    by_cases hd : pyFloatOk s = true
    · rw [if_pos hd] at h
      simp at h
    · rw [if_neg hd] at h
      simp at h
      exact ⟨_, h.symm⟩
  | cStr => simp at h

theorem convertAll_false_err (ty : ConvTy) (ls : List (List Char)) (e : PyErr)
    (h : convertAll ty false ls = .error e) : ∃ m, e = .valueError m := by
  induction ls with
  | nil => simp [convertAll] at h
  | cons s rest ih =>
    simp only [convertAll] at h
    cases hc : convertSlice ty false s with
    | error e₁ =>
      rw [hc] at h
      cases h
      exact convertSlice_false_err ty s _ hc
    | ok v =>
      rw [hc] at h
      cases hr : convertAll ty false rest with
      | error e₁ =>
        rw [hr] at h
        cases h
        exact ih hr
      | ok r => rw [hr] at h; cases h



/-- Claim C9 counterexample.  For `_str = "12"`, `slice_lengths = [0]`,
`start_at = 0` the length check passes (2 is not less than 0), so by the claim
one slice should be returned; instead the inferred `int` conversion runs
`int("")` on the empty slice and raises ValueError. -/
theorem c9_counterexample :
    ¬ ("12".data.length < 0 + List.sum [0]) ∧
    slice_string "12" [0] 0 false false =
      .error (.valueError "invalid literal for int with base ten") :=
  ⟨by decide, rfl⟩

/-- Claim C9 as amended.  `slice_string` raises IndexError exactly when the
string is shorter than `start_at + sum(slice_lengths)`; otherwise — provided
every extracted slice converts under the type inferred for the whole string —
it returns one value per slice length, and the underlying slices are
contiguous in order, their concatenation being the substring of the input at
`start_at` of total length `sum(slice_lengths)`; a long-enough string never
produces IndexError. -/
theorem c9_slice_string_amended (s : String) (lens : List Nat) (st : Nat) :
    (s.data.length < st + lens.sum →
      slice_string s lens st false false =
        .error (.indexError "start_at and slice_lengths add up to more than the string length")) ∧
    (¬ s.data.length < st + lens.sum →
      (∀ vals, convertAll (inferTy s.data false false) false (rawSlices s.data lens st) = .ok vals →
        slice_string s lens st false false = .ok vals ∧ vals.length = lens.length ∧
        (rawSlices s.data lens st).flatten = (s.data.drop st).take lens.sum) ∧
      ∀ m, slice_string s lens st false false ≠ .error (.indexError m)) := by
  constructor
  · intro h
    unfold slice_string
    rw [if_pos h]
  · intro h
    constructor
    · intro vals hv
      refine ⟨?_, (convertAll_length _ _ _ _ hv).trans (rawSlices_length _ _ _), rawSlices_join _ _ _⟩
      unfold slice_string
      rw [if_neg h]
      exact hv
    · intro m hc
      unfold slice_string at hc
      rw [if_neg h] at hc
      obtain ⟨m₁, hm⟩ := convertAll_false_err _ _ _ hc
      cases hm

/-- Witness for the amended C9 at the docstring's own example input. -/
theorem c9_slice_string_amended_witness :
    slice_string "0020150203122516684638" [4, 2, 2, 2, 2, 2, 6] 2 false false =
      .ok [.i 2015, .i 2, .i 3, .i 12, .i 25, .i 16, .i 684638] :=
  (((c9_slice_string_amended "0020150203122516684638" [4, 2, 2, 2, 2, 2, 6] 2).2
    (by decide)).1 _ rfl).1



theorem zfill_length (n : Nat) (s : String) (h : s.length ≤ n) : (zfill n s).length = n := by
  unfold zfill
  rw [String.length_append]
  simp only [String.length_mk, List.length_replicate]
  omega

theorem strftime_length (t : DT) (hy : t.y < 10000) (hmo : t.mo < 100) (hd : t.d < 100)
    (hh : t.h < 100) (hmi : t.mi < 100) (hs : t.s < 100) (hus : t.us < 1000000) :
    t.strftime.length = 20 := by
  unfold DT.strftime
  repeat rw [String.length_append]
  rw [zfill_length 4 _ (Nat.repr_length _ _ (by omega) (by simpa using hy)),
    zfill_length 2 _ (Nat.repr_length _ _ (by omega) (by simpa using hmo)),
    zfill_length 2 _ (Nat.repr_length _ _ (by omega) (by simpa using hd)),
    zfill_length 2 _ (Nat.repr_length _ _ (by omega) (by simpa using hh)),
    zfill_length 2 _ (Nat.repr_length _ _ (by omega) (by simpa using hmi)),
    zfill_length 2 _ (Nat.repr_length _ _ (by omega) (by simpa using hs)),
    zfill_length 6 _ (Nat.repr_length _ _ (by omega) (by simpa using hus))]

/-- Claim C4.  For every candidate document: a supplied non-null id
short-circuits derivation and is returned unchanged; a null id derives the
deterministic concatenation of the first-found timestamp (via
`get_timestamp_value`) and the first address-typed value, each component
zero-padded to fixed width — identical timestamp and address inputs always
yield identical ids — and for in-range components the id has fixed width
20 + 12 + 6 = 38. -/
theorem c4_get_message_id (values : Doc) :
    (∀ s, get_message_id (.str s) values = .ok s) ∧
    (∀ t ip port,
      get_timestamp_value (values.map (fun kv => kv.2)) = .ok t →
      ((values.map (fun kv => kv.2)).filter is_addr_typeF).head? =
        some (.prim (.addr ip port)) →
      get_message_id Prim.none values = .ok (t.strftime ++ ipPad ip ++ zfill 6 (Nat.repr port))) ∧
    (∀ values' : Doc,
      get_timestamp_value (values.map (fun kv => kv.2)) =
        get_timestamp_value (values'.map (fun kv => kv.2)) →
      ((values.map (fun kv => kv.2)).filter is_addr_typeF).head? =
        ((values'.map (fun kv => kv.2)).filter is_addr_typeF).head? →
      get_message_id Prim.none values = get_message_id Prim.none values') ∧
    (∀ (t : DT) (o₁ o₂ o₃ o₄ : String) (ip : String) (port : Nat),
      t.y < 10000 → t.mo < 100 → t.d < 100 → t.h < 100 → t.mi < 100 → t.s < 100 →
      t.us < 1000000 → pySplit ip "." = [o₁, o₂, o₃, o₄] →
      o₁.length ≤ 3 → o₂.length ≤ 3 → o₃.length ≤ 3 → o₄.length ≤ 3 → port < 1000000 →
      (t.strftime ++ ipPad ip ++ zfill 6 (Nat.repr port)).length = 38) := by
  refine ⟨fun s => rfl, ?_, ?_, ?_⟩
  · intro t ip port hts hhead
    unfold get_message_id
    rw [hts]
    cases he : (values.map (fun kv => kv.2)).filter is_addr_typeF with
    | nil => rw [he] at hhead; cases hhead
    | cons v tl =>
      rw [he] at hhead
      simp only [List.head?_cons, Option.some.injEq] at hhead
      subst hhead
      rfl
  · intro values' hts hhead
    unfold get_message_id
    rw [hts]
    cases ht' : get_timestamp_value (values'.map (fun kv => kv.2)) with
    | error e => rfl
    | ok t =>
      cases he : (values.map (fun kv => kv.2)).filter is_addr_typeF with
      | nil =>
        cases he' : (values'.map (fun kv => kv.2)).filter is_addr_typeF with
        | nil => rfl
        | cons v' tl' =>
          rw [he, he'] at hhead
          cases hhead
      | cons v tl =>
        cases he' : (values'.map (fun kv => kv.2)).filter is_addr_typeF with
        | nil =>
          rw [he, he'] at hhead
          cases hhead
        | cons v' tl' =>
          rw [he, he'] at hhead
          simp only [List.head?_cons, Option.some.injEq] at hhead
          subst hhead
          cases v with
          | prim p => cases p <;> rfl
          | sub d => rfl
          | list l => rfl
  · intro t o₁ o₂ o₃ o₄ ip port hy hmo hd hh hmi hs hus hip h₁ h₂ h₃ h₄ hport
    rw [String.length_append, String.length_append,
      strftime_length t hy hmo hd hh hmi hs hus,
      zfill_length 6 _ (Nat.repr_length _ _ (by omega) (by simpa using hport))]
    have hp : (ipPad ip).length = 12 := by
      unfold ipPad
      rw [hip]
      simp only [List.map_cons, List.map_nil, String.join, List.foldl]
      rw [String.length_append, String.length_append, String.length_append,
        String.length_append,
        zfill_length 3 _ h₁, zfill_length 3 _ h₂, zfill_length 3 _ h₃, zfill_length 3 _ h₄]
      rfl
    omega



/-- The pre-id fields of a candidate peer message (pydantic's `values` at the
time the `message_id` validator runs). -/
def c4values : Doc :=
  [("header", .prim (.int 12)),
   ("client_name", .prim (.str "John")),
   ("timestamps", .sub [("client_sent", .dt dt₁), ("server_received", .dt dt₂)]),
   ("message", .prim (.str "Hello")),
   ("client_address", .prim (.addr "127.0.0.1" 5050))]

/-- Witness for C4 at a concrete candidate document. -/
theorem c4_get_message_id_witness :
    get_message_id Prim.none c4values =
      .ok (dt₁.strftime ++ ipPad "127.0.0.1" ++ zfill 6 (Nat.repr 5050)) ∧
    get_message_id (.str "idX") c4values = .ok "idX" ∧
    (dt₁.strftime ++ ipPad "127.0.0.1" ++ zfill 6 (Nat.repr 5050)).length = 38 :=
  ⟨(c4_get_message_id c4values).2.1 dt₁ "127.0.0.1" 5050 rfl rfl,
   (c4_get_message_id c4values).1 "idX",
   (c4_get_message_id c4values).2.2.2 dt₁ "127" "0" "0" "1" "127.0.0.1" 5050
     (by decide) (by decide) (by decide) (by decide) (by decide) (by decide) (by decide)
     rfl (by decide) (by decide) (by decide) (by decide) (by decide)⟩



/-- Claim C7.  `append_message` surfaces the validator's error with the store
completely untouched (documents, sort flag and frozen sort key); on success
the validated document is inserted at the tail and, when sorting is enabled
with a frozen key, the whole collection is re-sorted by it (on the very first
append the key is first discovered from the head document and frozen). -/
theorem c7_append_message (now : DT) (sc : List FieldDef) (st : Store) (fields : Doc) :
    (∀ e, validateFields now sc fields = .error e →
      append_message now sc st fields = (st, some e)) ∧
    (∀ d, validateFields now sc fields = .ok d →
      append_message now sc st fields = appendValidated st d ∧
      (st.sort_messages_by_date = false →
        append_message now sc st fields =
          ({ st with waiting_messages := st.waiting_messages ++ [d] }, Option.none)) ∧
      (∀ k, st.sort_messages_by_date = true → st.timestamp_key = some k →
        append_message now sc st fields =
          ({ st with waiting_messages := sort_by_date (st.waiting_messages ++ [d]) k },
            Option.none)) ∧
      (∀ k, st.sort_messages_by_date = true → st.timestamp_key = Option.none →
        (find_datetime_value_key ((st.waiting_messages ++ [d]).headD [])).head? = some k →
        append_message now sc st fields =
          (⟨sort_by_date (st.waiting_messages ++ [d]) k, st.sort_messages_by_date, some k⟩,
            Option.none))) := by
  constructor
  · intro e he
    unfold append_message
    rw [he]
  · intro d hd
    refine ⟨by unfold append_message; rw [hd], ?_, ?_, ?_⟩
    · intro hflag
      unfold append_message
      rw [hd]
      unfold appendValidated
      rw [hflag]
      simp
    · intro k hflag hk
      unfold append_message
      rw [hd]
      unfold appendValidated
      rw [hflag, hk]
      simp
    · intro k hflag hk hfind
      unfold append_message
      rw [hd]
      unfold appendValidated
      dsimp only
      rw [hflag, hk]
      rw [if_pos (rfl : (true : Bool) = true)]
      rw [hfind]



def c7store : Store := ⟨[c1doc], true, some ["timestamps", "client_sent"]⟩

def c7bad : Doc := [("header", .prim (.int 1)), ("bogus", .prim (.str "x"))]

/-- Witness for C7: a rejected append leaves store, documents and frozen key
untouched; a valid append inserts at the tail and re-sorts by the frozen key. -/
theorem c7_append_message_witness :
    append_message dt₂ messageSchema c7store c7bad =
      (c7store, some (.validationError "extra fields not permitted")) ∧
    append_message dt₂ messageSchema c7store c3doc =
      ({ c7store with
          waiting_messages :=
            sort_by_date (c7store.waiting_messages ++ [c3doc]) ["timestamps", "client_sent"] },
        Option.none) :=
  ⟨(c7_append_message dt₂ messageSchema c7store c7bad).1 _ rfl,
   ((c7_append_message dt₂ messageSchema c7store c3doc).2 c3doc rfl).2.2.1 _ rfl rfl⟩



theorem um_go_append (sc : List FieldDef) (conds : List Cond)
    (pre rest : List (String × Prim)) (ix : Option (List (Nat × Option Nat)))
    (m m₁ : List Doc) (ix₁ : Option (List (Nat × Option Nat)))
    (hpre : um_go sc conds pre ix m = (m₁, ix₁, Option.none)) :
    um_go sc conds (pre ++ rest) ix m = um_go sc conds rest ix₁ m₁ := by
  induction pre generalizing ix m with
  | nil =>
    simp only [um_go, Prod.mk.injEq] at hpre
    obtain ⟨h1, h2, -⟩ := hpre
    subst h1
    subst h2
    rfl
  | cons a pre ih =>
    obtain ⟨item, v⟩ := a
    simp only [um_go] at hpre ⊢
    cases hu : update_messages sc (parseAssign item).2 v (parseAssign item).1 conds ix m with
    | mk mm rest₂ =>
      obtain ⟨ixr, er⟩ := rest₂
      rw [hu] at hpre
      cases er with
      | some e => cases ixr <;> simp_all
      | none =>
        cases ixr with
        | some aps =>
          exact ih _ _ hpre
        | none =>
          exact ih _ _ hpre

/-- Claim C8 as amended.  In `__update_multiple`, an assignment whose target
field is not modifiable or whose value is type-incompatible is refused with
the schema error, and that error aborts the query at the failing assignment:
assignments before it remain applied (no rollback, sharing the chained
AccessPoint set), while the failing and all later assignments are never
applied. -/
theorem c8_update_multiple_amended (sc : List FieldDef) (conds : List Cond)
    (msgs m₁ : List Doc) (preI : List String) (preV : List Prim)
    (badI : String) (badV : Prim) (postI : List String) (postV : List Prim)
    (ix₁ : Option (List (Nat × Option Nat))) (e : PyErr)
    (hlen : preI.length = preV.length)
    (hpre : um_go sc conds (preI.zip preV) Option.none msgs = (m₁, ix₁, Option.none))
    (hbad : isInSchemaTop ((parseAssign badI).1.toList ++ [(parseAssign badI).2]) sc true badV =
      .error e) :
    update_multiple sc (preI ++ badI :: postI) (preV ++ badV :: postV) conds msgs =
      (m₁, some e) := by
  unfold update_multiple
  rw [List.zip_append hlen]
  rw [um_go_append sc conds _ _ _ _ _ _ hpre]
  show (match um_go sc conds ((badI, badV) :: postI.zip postV) ix₁ m₁ with
    | (m, _, er) => (m, er)) = (m₁, some e)
  simp only [um_go]
  unfold update_messages
  rw [hbad]



/-- Claim C8 counterexample.  Two assignments in one UPDATE query, the first
targeting the non-modifiable `broadcasted.client_name`: the claim says the
refusal aborts only that assignment and the other is still applied, but the
exception aborts the whole query — the error is raised, the store is returned
unchanged, and `message_received_at` of the only recipient (which the second
assignment should have set to `dt₃`) is still None. -/
theorem c8_counterexample :
    query messageSchema [c3doc]
      "UPDATE broadcasted.client_name=\x7b\x7d, broadcasted.message_received_at=\x7b\x7d WHERE message_id==\x7b\x7d, broadcasted.client_name==\x7b\x7d"
      [.str "Eve", .dt dt₃] [.str "idB", .str "Mike"] =
      ⟨[c3doc], Option.none,
        some (.keyError "field is not modifiable or does not exist in the schema")⟩ ∧
    aget (recipPending "Mike") "message_received_at" = some Prim.none :=
  ⟨rfl, rfl⟩

def c8conds : List Cond :=
  [⟨"message_id", .eq, .str "idB"⟩, ⟨"broadcasted.client_name", .eq, .str "Mike"⟩]

/-- Witness for the amended C8: the first assignment is applied (setting
`message_received_at`), the second (non-modifiable target) raises and aborts,
and the third is never applied. -/
theorem c8_update_multiple_amended_witness :
    update_multiple messageSchema
      (["broadcasted.message_received_at=\x7b\x7d"] ++
        "broadcasted.client_name=\x7b\x7d" :: ["broadcasted.message_sent_at=\x7b\x7d"])
      ([.dt dt₃] ++ Prim.str "Eve" :: [.dt dt₃]) c8conds [c3doc] =
      ([c3docAfter], some (.keyError "field is not modifiable or does not exist in the schema")) :=
  c8_update_multiple_amended messageSchema c8conds [c3doc] [c3docAfter]
    ["broadcasted.message_received_at=\x7b\x7d"] [.dt dt₃]
    "broadcasted.client_name=\x7b\x7d" (Prim.str "Eve")
    ["broadcasted.message_sent_at=\x7b\x7d"] [.dt dt₃]
    (some [(0, some 0)]) _ rfl rfl rfl


theorem sort_by_date_sorted (l : List Doc) (keys : List String) :
    List.Sorted (fun a b => sortKeyCode keys a ≤ sortKeyCode keys b) (sort_by_date l keys) := by
  have h1 : IsTotal Doc (fun a b => sortKeyCode keys a ≤ sortKeyCode keys b) :=
    ⟨fun _ _ => Nat.le_total _ _⟩
  have h2 : IsTrans Doc (fun a b => sortKeyCode keys a ≤ sortKeyCode keys b) :=
    ⟨fun _ _ _ => Nat.le_trans⟩
  exact List.sorted_insertionSort _ _

theorem filter_orderedInsert_skc (keys : List String) (k : Nat) (a : Doc) (L : List Doc) :
    ((L.orderedInsert (fun x y => sortKeyCode keys x ≤ sortKeyCode keys y) a).filter
      (fun x => sortKeyCode keys x == k)) =
    (if sortKeyCode keys a == k then a :: L.filter (fun x => sortKeyCode keys x == k)
     else L.filter (fun x => sortKeyCode keys x == k)) := by
  induction L with
  | nil =>
    simp only [List.orderedInsert, List.filter]
    by_cases hak : (sortKeyCode keys a == k) = true <;> simp [hak]
  | cons b L ih =>
    unfold List.orderedInsert
    by_cases hab : sortKeyCode keys a ≤ sortKeyCode keys b
    · rw [if_pos hab]
      by_cases hak : (sortKeyCode keys a == k) = true <;>
        simp [List.filter_cons, hak]
    · rw [if_neg hab]
      rw [List.filter_cons, ih]
      by_cases hak : (sortKeyCode keys a == k) = true
      · have hbk : (sortKeyCode keys b == k) = false := by
          have hlt : sortKeyCode keys b < sortKeyCode keys a := Nat.lt_of_not_le hab
          have hae : sortKeyCode keys a = k := by simpa using hak
          simp only [beq_eq_false_iff_ne, ne_eq]
          omega
        simp [hak, hbk, List.filter_cons]
      · have hakf : (sortKeyCode keys a == k) = false := by
          revert hak
          cases sortKeyCode keys a == k <;> simp
        simp [hakf, List.filter_cons]

theorem filter_sort_by_date (l : List Doc) (keys : List String) (k : Nat) :
    (sort_by_date l keys).filter (fun x => sortKeyCode keys x == k) =
    l.filter (fun x => sortKeyCode keys x == k) := by
  induction l with
  | nil => rfl
  | cons a l ih =>
    unfold sort_by_date List.insertionSort
    rw [filter_orderedInsert_skc]
    unfold sort_by_date at ih
    rw [ih, List.filter_cons]


/-- One `append_message` fold step (the store for the rest of a run). -/
def appendFold (now : DT) (sc : List FieldDef) (s : Store) (inputs : List Doc) : Store :=
  inputs.foldl (fun t f => (append_message now sc t f).1) s

theorem appendFold_inv (now : DT) (sc : List FieldDef) (k0 : List String) :
    ∀ (inputs ds : List Doc) (s : Store),
      inputs.mapM (validateFields now sc) = .ok ds →
      s.sort_messages_by_date = true →
      s.timestamp_key = some k0 →
      List.Sorted (fun a b => sortKeyCode k0 a ≤ sortKeyCode k0 b) s.waiting_messages →
      (appendFold now sc s inputs).sort_messages_by_date = true ∧
      (appendFold now sc s inputs).timestamp_key = some k0 ∧
      List.Sorted (fun a b => sortKeyCode k0 a ≤ sortKeyCode k0 b)
        (appendFold now sc s inputs).waiting_messages ∧
      ∀ k, (appendFold now sc s inputs).waiting_messages.filter
             (fun d => sortKeyCode k0 d == k) =
           s.waiting_messages.filter (fun d => sortKeyCode k0 d == k) ++
             ds.filter (fun d => sortKeyCode k0 d == k) := by
  intro inputs
  induction inputs with
  | nil =>
    intro ds s hval hsort htk hsorted
    simp only [List.mapM_nil, pure, Except.pure, Except.ok.injEq] at hval
    subst hval
    refine ⟨hsort, htk, hsorted, ?_⟩
    intro k
    simp [appendFold]
  | cons f rest ih =>
    intro ds s hval hsort htk hsorted
    rw [List.mapM_cons] at hval
    cases hv : validateFields now sc f with
    | error e => rw [hv] at hval; exact absurd hval (by simp [Bind.bind, Except.bind])
    | ok d =>
      rw [hv] at hval
      cases hr : rest.mapM (validateFields now sc) with
      | error e => rw [hr] at hval; exact absurd hval (by simp [Bind.bind, Except.bind])
      | ok ds' =>
        rw [hr] at hval
        simp only [Bind.bind, Except.bind, pure, Except.pure, Except.ok.injEq] at hval
        subst hval
        have hF : (append_message now sc s f).1 =
            { s with waiting_messages :=
                sort_by_date (s.waiting_messages ++ [d]) k0 } := by
          simp only [append_message, hv, appendValidated, hsort, htk, if_true]
        have hstep := ih ds'
          { s with waiting_messages := sort_by_date (s.waiting_messages ++ [d]) k0 }
          hr hsort htk (sort_by_date_sorted _ _)
        have hfold : appendFold now sc s (f :: rest) =
            appendFold now sc
              { s with waiting_messages := sort_by_date (s.waiting_messages ++ [d]) k0 }
              rest := by
          simp only [appendFold, List.foldl_cons, hF]
        rw [hfold]
        refine ⟨hstep.1, hstep.2.1, hstep.2.2.1, ?_⟩
        intro k
        rw [hstep.2.2.2 k]
        simp only [filter_sort_by_date, List.filter_append, List.filter_cons,
          List.append_assoc]
        by_cases hdk : (sortKeyCode k0 d == k) = true <;> simp [hdk]

/-- C2: with sort-by-date enabled and every append passing validation, the
first datetime-typed field path discovered in the first document ever appended
is frozen as the store's `timestamp_key` and reused for every later append,
after the whole run (and, by instantiating `inputs` with any prefix, after
each append) the collection is sorted non-decreasingly by that key path, and
the sort is stable: for every sort-key value, the documents carrying it appear
in their original append order (the filtered collection equals the filtered
append sequence). -/
theorem c2_sort_invariant (now : DT) (sc : List FieldDef) (k0 : List String)
    (f0 : Doc) (inputs : List Doc) (d0 : Doc) (ds : List Doc)
    (hv0 : validateFields now sc f0 = .ok d0)
    (hval : inputs.mapM (validateFields now sc) = .ok ds)
    (hk : (find_datetime_value_key d0).head? = some k0) :
    (appendFold now sc (mkStore true) (f0 :: inputs)).timestamp_key = some k0 ∧
    (appendFold now sc (mkStore true) (f0 :: inputs)).sort_messages_by_date = true ∧
    List.Sorted (fun a b => sortKeyCode k0 a ≤ sortKeyCode k0 b)
      (appendFold now sc (mkStore true) (f0 :: inputs)).waiting_messages ∧
    ∀ k, (appendFold now sc (mkStore true) (f0 :: inputs)).waiting_messages.filter
           (fun d => sortKeyCode k0 d == k) =
         (d0 :: ds).filter (fun d => sortKeyCode k0 d == k) := by
  have hF : (append_message now sc (mkStore true) f0).1 =
      { waiting_messages := sort_by_date [d0] k0,
        sort_messages_by_date := true,
        timestamp_key := some k0 } := by
    simp only [append_message, hv0, appendValidated, mkStore, if_true,
      List.nil_append, List.headD, hk]
  have hfold : appendFold now sc (mkStore true) (f0 :: inputs) =
      appendFold now sc
        { waiting_messages := sort_by_date [d0] k0,
          sort_messages_by_date := true,
          timestamp_key := some k0 } inputs := by
    simp only [appendFold, List.foldl_cons, hF]
  have hstep := appendFold_inv now sc k0 inputs ds
    { waiting_messages := sort_by_date [d0] k0,
      sort_messages_by_date := true,
      timestamp_key := some k0 }
    hval rfl rfl (sort_by_date_sorted _ _)
  rw [hfold]
  refine ⟨hstep.2.1, hstep.1, hstep.2.2.1, ?_⟩
  intro k
  rw [hstep.2.2.2 k]
  simp only [filter_sort_by_date, List.filter_cons]
  by_cases hdk : (sortKeyCode k0 d0 == k) = true <;> simp [hdk]



theorem c2_sort_invariant_witness :
    (appendFold dt₂ messageSchema (mkStore true) [c3doc, c1doc]).timestamp_key =
      some ["timestamps", "client_sent"] ∧
    (appendFold dt₂ messageSchema (mkStore true) [c3doc, c1doc]).sort_messages_by_date = true ∧
    List.Sorted
      (fun a b => sortKeyCode ["timestamps", "client_sent"] a ≤
        sortKeyCode ["timestamps", "client_sent"] b)
      (appendFold dt₂ messageSchema (mkStore true) [c3doc, c1doc]).waiting_messages ∧
    ∀ k, (appendFold dt₂ messageSchema (mkStore true) [c3doc, c1doc]).waiting_messages.filter
           (fun d => sortKeyCode ["timestamps", "client_sent"] d == k) =
         ([c3doc, c1doc]).filter
           (fun d => sortKeyCode ["timestamps", "client_sent"] d == k) :=
  c2_sort_invariant dt₂ messageSchema ["timestamps", "client_sent"] c3doc [c1doc] c3doc
    [c1doc] rfl rfl rfl

/-- Does one embedded-list element satisfy `x[g] <op> v`?  Total wrapper of the
element test of `get_messages`, used to state what `DELETE IN` removes. -/
def elemSat (o : Op) (g : String) (v : Prim) (e : SubDoc) : Bool :=
  match aget e g with
  | some p => match Op.apply o p v with | .ok b => b | .error _ => false
  | Option.none => false

/-- Indices (counted from `j0`) of the list elements satisfying the condition. -/
def satIdx (o : Op) (g : String) (v : Prim) : List SubDoc → Nat → List Nat
  | [], _ => []
  | e :: r, j =>
    if elemSat o g v e then j :: satIdx o g v r (j + 1) else satIdx o g v r (j + 1)

/-- Does a document satisfy a top-level condition `x[k] <op> v`? -/
def topSat (o : Op) (k : String) (v : Prim) (d : Doc) : Bool :=
  match aget d k with
  | some fv => match applyFV o fv v with | .ok b => b | .error _ => false
  | Option.none => false

/-- Indices (counted from `i0`) of the documents satisfying a top-level
condition. -/
def satIdxB (o : Op) (k : String) (v : Prim) : List Doc → Nat → List Nat
  | [], _ => []
  | d :: r, i =>
    if topSat o k v d then i :: satIdxB o k v r (i + 1) else satIdxB o k v r (i + 1)

/-- The element index a single embedded-list condition on `foi.g` selects in
one document: `some j` when the document's `foi` list has exactly one
satisfying element, at index `j`. -/
def apOfDoc (o : Op) (foi g : String) (v : Prim) (d : Doc) : Option Nat :=
  match aget d foi with
  | some (.list elems) =>
    match satIdx o g v elems 0 with
    | [j] => some j
    | _ => Option.none
  | _ => Option.none

/-- The access points produced by a single embedded-list condition on `foi.g`:
one `(i, some j)` per document whose list has exactly one satisfying element. -/
def apsA (o : Op) (foi g : String) (v : Prim) : List Doc → Nat → List (Nat × Option Nat)
  | [], _ => []
  | d :: r, i =>
    (match apOfDoc o foi g v d with
     | some j => [(i, some j)]
     | Option.none => []) ++ apsA o foi g v r (i + 1)

theorem scanElems_eq (o : Op) (g : String) (v : Prim) (elems : List SubDoc) (j0 : Nat)
    (htot : ∀ e ∈ elems, ∃ p, aget e g = some p ∧ ∃ b, Op.apply o p v = .ok b) :
    scanElems o g v elems j0 =
      .ok ((satIdx o g v elems j0).length, satIdx o g v elems j0) := by
  induction elems generalizing j0 with
  | nil => rfl
  | cons e r ih =>
    obtain ⟨p, hp, b, hb⟩ := htot e (List.mem_cons_self e r)
    have hsat : elemSat o g v e = b := by
      simp only [elemSat, hp, hb]
    have hr : ∀ e ∈ r, ∃ p, aget e g = some p ∧ ∃ b, Op.apply o p v = .ok b :=
      fun e he => htot e (List.mem_cons_of_mem _ he)
    simp only [scanElems, hp, hb, ih (j0 + 1) hr, satIdx, hsat]
    cases b <;> simp

theorem satIdx_shift (o : Op) (g : String) (v : Prim) (l : List SubDoc) (j0 : Nat) :
    satIdx o g v l (j0 + 1) = (satIdx o g v l j0).map (fun n => n + 1) := by
  induction l generalizing j0 with
  | nil => rfl
  | cons e r ih =>
    simp only [satIdx]
    cases elemSat o g v e <;> simp [ih (j0 + 1)]

theorem satIdx_length (o : Op) (g : String) (v : Prim) (l : List SubDoc) (j0 : Nat) :
    (satIdx o g v l j0).length = l.countP (elemSat o g v) := by
  induction l generalizing j0 with
  | nil => rfl
  | cons e r ih =>
    simp only [satIdx, List.countP_cons]
    cases h : elemSat o g v e <;> simp [ih (j0 + 1)]

theorem satIdx_mem_lt (o : Op) (g : String) (v : Prim) (l : List SubDoc) (j : Nat)
    (h : j ∈ satIdx o g v l 0) : j < l.length := by
  induction l generalizing j with
  | nil => simp [satIdx] at h
  | cons e r ih =>
    simp only [satIdx] at h
    rw [satIdx_shift] at h
    by_cases heq : elemSat o g v e = true
    · rw [if_pos heq] at h
      simp only [List.mem_cons, List.mem_map] at h
      rcases h with rfl | ⟨j', hj', rfl⟩
      · simp
      · have := ih j' hj'
        simp only [List.length_cons]
        omega
    · rw [if_neg heq] at h
      simp only [List.mem_map] at h
      obtain ⟨j', hj', rfl⟩ := h
      have := ih j' hj'
      simp only [List.length_cons]
      omega

theorem filter_eq_erase_of_le_one (o : Op) (g : String) (v : Prim) (l : List SubDoc)
    (h1 : l.countP (elemSat o g v) ≤ 1) :
    l.filter (fun e => ! elemSat o g v e) =
      (match satIdx o g v l 0 with
       | [] => l
       | j :: _ => l.eraseIdx j) := by
  induction l with
  | nil => rfl
  | cons e r ih =>
    rcases hse : elemSat o g v e with _ | _
    · have hr : r.countP (elemSat o g v) ≤ 1 := by
        have hne : ¬ elemSat o g v e = true := by simp [hse]
        rwa [List.countP_cons_of_neg _ _ hne] at h1
      simp only [satIdx, hse, Bool.false_eq_true, if_false, satIdx_shift,
        List.filter_cons, Bool.not_false, if_true, ih hr]
      cases hsi : satIdx o g v r 0 with
      | nil => simp
      | cons j t => simp [List.eraseIdx_cons_succ]
    · have hr : r.countP (elemSat o g v) = 0 := by
        rw [List.countP_cons_of_pos _ _ hse] at h1
        omega
      have hall : r.filter (fun e => ! elemSat o g v e) = r := by
        rw [List.filter_eq_self]
        intro a ha
        have := List.countP_eq_zero.mp hr a ha
        simp [this]
      simp only [satIdx, hse, if_true, List.filter_cons, Bool.not_true,
        Bool.false_eq_true, if_false, hall, List.eraseIdx_cons_zero]


theorem condsMatchMsg_listCond (sc : List FieldDef) (lc : Cond) (foi g : String)
    (msg : Doc) (elems : List SubDoc)
    (hpath : lc.fieldPath = [foi, g])
    (hsc : isInSchemaTop [foi, g] sc false lc.val = .ok ())
    (hfoi : aget msg foi = some (.list elems))
    (htot : ∀ e ∈ elems, ∃ p, aget e g = some p ∧ ∃ b, Op.apply lc.op p lc.val = .ok b) :
    condsMatchMsg sc msg [lc] =
      .ok ((satIdx lc.op g lc.val elems 0).length, satIdx lc.op g lc.val elems 0) := by
  simp only [condsMatchMsg, hpath, hsc, hfoi, scanElems_eq lc.op g lc.val elems 0 htot,
    Nat.add_zero, List.append_nil]

theorem condsMatchMsg_topCond (sc : List FieldDef) (tc : Cond) (k : String)
    (msg : Doc) (fv : FValue) (b : Bool)
    (hpath : tc.fieldPath = [k])
    (hsc : isInSchemaTop [k] sc false tc.val = .ok ())
    (hk : aget msg k = some fv)
    (happ : applyFV tc.op fv tc.val = .ok b) :
    condsMatchMsg sc msg [tc] = .ok ((if b then 1 else 0), []) := by
  simp only [condsMatchMsg, hpath, hsc, hk, happ, Nat.add_zero, List.append_nil]

theorem satIdxB_shift (o : Op) (k : String) (v : Prim) (l : List Doc) (i0 : Nat) :
    satIdxB o k v l (i0 + 1) = (satIdxB o k v l i0).map (fun n => n + 1) := by
  induction l generalizing i0 with
  | nil => rfl
  | cons d r ih =>
    simp only [satIdxB]
    cases topSat o k v d <;> simp [ih (i0 + 1)]

theorem satIdxB_mem (o : Op) (k : String) (v : Prim) (l : List Doc) (i : Nat) :
    i ∈ satIdxB o k v l 0 ↔ ∃ d, l[i]? = some d ∧ topSat o k v d = true := by
  induction l generalizing i with
  | nil => simp [satIdxB]
  | cons d r ih =>
    simp only [satIdxB]
    rw [satIdxB_shift]
    cases i with
    | zero =>
      by_cases hd : topSat o k v d = true
      · simp [hd]
      · simp only [hd, Bool.false_eq_true, if_false, List.mem_map]
        simp only [List.getElem?_cons_zero, Option.some.injEq]
        constructor
        · rintro ⟨j', -, hj'⟩
          omega
        · rintro ⟨d', rfl, hsat⟩
          exact absurd hsat hd
    | succ t =>
      have hmap : (t + 1 ∈ (satIdxB o k v r 0).map (fun n => n + 1)) ↔ t ∈ satIdxB o k v r 0 := by
        simp only [List.mem_map]
        constructor
        · rintro ⟨j', hj', he⟩
          have : j' = t := by omega
          subst this
          exact hj'
        · intro ht
          exact ⟨t, ht, rfl⟩
      by_cases hd : topSat o k v d = true
      · rw [if_pos hd]
        simp only [List.mem_cons, hmap, Nat.add_one_ne_zero, false_or]
        rw [ih t]
        simp [List.getElem?_cons_succ]
      · rw [if_neg hd, hmap, ih t]
        simp [List.getElem?_cons_succ]

theorem satIdxB_ge (o : Op) (k : String) (v : Prim) (l : List Doc) (i0 : Nat) :
    ∀ n ∈ satIdxB o k v l i0, i0 ≤ n := by
  induction l generalizing i0 with
  | nil => intro n hn; simp [satIdxB] at hn
  | cons d r ih =>
    intro n hn
    simp only [satIdxB] at hn
    by_cases hd : topSat o k v d = true
    · rw [if_pos hd] at hn
      rcases List.mem_cons.mp hn with rfl | hn'
      · exact Nat.le_refl n
      · exact Nat.le_of_succ_le (ih (i0 + 1) n hn')
    · rw [if_neg hd] at hn
      exact Nat.le_of_succ_le (ih (i0 + 1) n hn)

theorem satIdxB_nodup (o : Op) (k : String) (v : Prim) (l : List Doc) (i0 : Nat) :
    (satIdxB o k v l i0).Nodup := by
  induction l generalizing i0 with
  | nil => exact List.nodup_nil
  | cons d r ih =>
    simp only [satIdxB]
    by_cases hd : topSat o k v d = true
    · rw [if_pos hd]
      refine List.nodup_cons.mpr ⟨?_, ih (i0 + 1)⟩
      intro hmem
      have := satIdxB_ge o k v r (i0 + 1) i0 hmem
      omega
    · rw [if_neg hd]
      exact ih (i0 + 1)


theorem apsA_shift (o : Op) (foi g : String) (v : Prim) (l : List Doc) (i0 : Nat) :
    apsA o foi g v l (i0 + 1) = (apsA o foi g v l i0).map (fun ap => (ap.1 + 1, ap.2)) := by
  induction l generalizing i0 with
  | nil => rfl
  | cons d r ih =>
    simp only [apsA, List.map_append, ih (i0 + 1)]
    congr 1
    cases apOfDoc o foi g v d <;> rfl

theorem apsA_ge (o : Op) (foi g : String) (v : Prim) (l : List Doc) (i0 : Nat) :
    ∀ ap ∈ apsA o foi g v l i0, i0 ≤ ap.1 := by
  induction l generalizing i0 with
  | nil => intro ap hap; simp [apsA] at hap
  | cons d r ih =>
    intro ap hap
    simp only [apsA, List.mem_append] at hap
    rcases hap with hap | hap
    · cases hj : apOfDoc o foi g v d with
      | none => rw [hj] at hap; simp at hap
      | some j =>
        rw [hj] at hap
        simp only [List.mem_singleton] at hap
        subst hap
        exact Nat.le_refl i0
    · exact Nat.le_of_succ_le (ih (i0 + 1) ap hap)

theorem apsA_fst_nodup (o : Op) (foi g : String) (v : Prim) (l : List Doc) (i0 : Nat) :
    ((apsA o foi g v l i0).map Prod.fst).Nodup := by
  induction l generalizing i0 with
  | nil => exact List.nodup_nil
  | cons d r ih =>
    simp only [apsA, List.map_append]
    have htail : ∀ n ∈ (apsA o foi g v r (i0 + 1)).map Prod.fst, i0 + 1 ≤ n := by
      intro n hn
      simp only [List.mem_map] at hn
      obtain ⟨ap, hap, rfl⟩ := hn
      exact apsA_ge o foi g v r (i0 + 1) ap hap
    cases hj : apOfDoc o foi g v d with
    | none => simpa using ih (i0 + 1)
    | some j =>
      simp only [List.map_cons, List.map_nil, List.singleton_append]
      refine List.nodup_cons.mpr ⟨?_, ih (i0 + 1)⟩
      intro hmem
      have := htail i0 hmem
      omega

theorem apsA_mem (o : Op) (foi g : String) (v : Prim) (l : List Doc) (i : Nat)
    (oj : Option Nat) :
    ((i, oj) ∈ apsA o foi g v l 0) ↔
      ∃ d j, l[i]? = some d ∧ apOfDoc o foi g v d = some j ∧ oj = some j := by
  induction l generalizing i with
  | nil => simp [apsA]
  | cons d r ih =>
    simp only [apsA, List.mem_append]
    rw [apsA_shift]
    cases i with
    | zero =>
      have hmap : ((0, oj) ∈ (apsA o foi g v r 0).map (fun ap => (ap.1 + 1, ap.2))) ↔ False := by
        simp only [List.mem_map, iff_false]
        rintro ⟨ap, -, hap⟩
        have := congrArg Prod.fst hap
        simp at this
      rw [hmap, or_false]
      simp only [List.getElem?_cons_zero, Option.some.injEq]
      cases hj : apOfDoc o foi g v d with
      | none =>
        simp only [List.not_mem_nil, false_iff]
        rintro ⟨d', j, rfl, hj', rfl⟩
        rw [hj] at hj'
        exact Option.noConfusion hj'
      | some j =>
        simp only [List.mem_singleton, Prod.mk.injEq, true_and]
        constructor
        · rintro rfl
          exact ⟨d, j, rfl, hj, rfl⟩
        · rintro ⟨d', j', rfl, hj', rfl⟩
          rw [hj] at hj'
          simpa using hj'.symm
    | succ t =>
      have hhd : ((t + 1, oj) ∈ (match apOfDoc o foi g v d with
          | some j => [((0 : Nat), some j)]
          | Option.none => ([] : List (Nat × Option Nat)))) ↔ False := by
        cases hj : apOfDoc o foi g v d with
        | none => simp
        | some j => simp
      rw [hhd, false_or]
      have hmap : ((t + 1, oj) ∈ (apsA o foi g v r 0).map (fun ap => (ap.1 + 1, ap.2))) ↔
          (t, oj) ∈ apsA o foi g v r 0 := by
        simp only [List.mem_map]
        constructor
        · rintro ⟨⟨i', oj'⟩, hap, heq⟩
          simp only [Prod.mk.injEq] at heq
          obtain ⟨hi, rfl⟩ := heq
          obtain rfl : i' = t := by omega
          exact hap
        · intro hap
          exact ⟨(t, oj), hap, rfl⟩
      rw [hmap, ih t]
      simp [List.getElem?_cons_succ]


theorem gmScanA (sc : List FieldDef) (lc : Cond) (foi g : String) (msgs : List Doc) (i0 : Nat)
    (hpath : lc.fieldPath = [foi, g])
    (hsc : isInSchemaTop [foi, g] sc false lc.val = .ok ())
    (hdocs : ∀ d ∈ msgs, ∃ elems, aget d foi = some (.list elems) ∧
        ∀ e ∈ elems, ∃ p, aget e g = some p ∧ ∃ b, Op.apply lc.op p lc.val = .ok b) :
    ∃ fnd, gmScan sc [lc] i0 msgs = .ok (apsA lc.op foi g lc.val msgs i0, fnd) := by
  induction msgs generalizing i0 with
  | nil => exact ⟨[], rfl⟩
  | cons d r ih =>
    obtain ⟨elems, hget, htot⟩ := hdocs d (List.mem_cons_self d r)
    obtain ⟨fnd, hr⟩ := ih (i0 + 1) (fun d' hd' => hdocs d' (List.mem_cons_of_mem _ hd'))
    have hcm := condsMatchMsg_listCond sc lc foi g d elems hpath hsc hget htot
    cases hsi : satIdx lc.op g lc.val elems 0 with
    | nil =>
      have hap : apOfDoc lc.op foi g lc.val d = Option.none := by
        simp only [apOfDoc, hget, hsi]
      refine ⟨fnd, ?_⟩
      rw [hsi] at hcm
      simp only [gmScan, hcm, hr, List.length_nil, List.length_cons, apsA, hap,
        List.nil_append]
      rfl
    | cons j t =>
      cases t with
      | nil =>
        have hap : apOfDoc lc.op foi g lc.val d = some j := by
          simp only [apOfDoc, hget, hsi]
        refine ⟨d :: fnd, ?_⟩
        rw [hsi] at hcm
        simp only [gmScan, hcm, hr, apsA, hap]
        rfl
      | cons j2 t2 =>
        have hap : apOfDoc lc.op foi g lc.val d = Option.none := by
          simp only [apOfDoc, hget, hsi]
        refine ⟨fnd, ?_⟩
        rw [hsi] at hcm
        simp only [gmScan, hcm, hr, apsA, hap, List.nil_append]
        rfl

theorem gmScanB (sc : List FieldDef) (tc : Cond) (k : String) (msgs : List Doc) (i0 : Nat)
    (hpath : tc.fieldPath = [k])
    (hsc : isInSchemaTop [k] sc false tc.val = .ok ())
    (hdocs : ∀ d ∈ msgs, ∃ fv, aget d k = some fv ∧ ∃ b, applyFV tc.op fv tc.val = .ok b) :
    ∃ fnd, gmScan sc [tc] i0 msgs =
      .ok ((satIdxB tc.op k tc.val msgs i0).map (fun i => (i, Option.none)), fnd) := by
  induction msgs generalizing i0 with
  | nil => exact ⟨[], rfl⟩
  | cons d r ih =>
    obtain ⟨fv, hk, b, happ⟩ := hdocs d (List.mem_cons_self d r)
    obtain ⟨fnd, hr⟩ := ih (i0 + 1) (fun d' hd' => hdocs d' (List.mem_cons_of_mem _ hd'))
    have hcm := condsMatchMsg_topCond sc tc k d fv b hpath hsc hk happ
    have hts : topSat tc.op k tc.val d = b := by
      simp only [topSat, hk, happ]
    cases b with
    | true =>
      refine ⟨d :: fnd, ?_⟩
      simp only [gmScan, hcm, hr, satIdxB, hts, if_true, List.map_cons]
      rfl
    | false =>
      refine ⟨fnd, ?_⟩
      simp only [gmScan, hcm, hr, satIdxB, hts, Bool.false_eq_true, if_false]
      rfl

theorem dedupGo_eq_self {α : Type} [DecidableEq α] (seen l : List α)
    (h : l.Nodup) (hdisj : ∀ x ∈ l, x ∉ seen) : dedupGo seen l = l := by
  induction l generalizing seen with
  | nil => rfl
  | cons x r ih =>
    have hx : ¬ seen.contains x = true := by
      intro hc
      exact hdisj x (List.mem_cons_self x r) (by simpa [List.elem_iff] using hc)
    rw [List.nodup_cons] at h
    have hrec := ih (x :: seen) h.2 (fun y hy => by
      intro hmem
      rcases List.mem_cons.mp hmem with rfl | hmem'
      · exact h.1 hy
      · exact hdisj y (List.mem_cons_of_mem _ hy) hmem')
    simp only [dedupGo, if_neg hx, hrec]

theorem dedupF_eq_self {α : Type} [DecidableEq α] (l : List α) (h : l.Nodup) :
    dedupF l = l :=
  dedupGo_eq_self [] l h (by simp)


theorem delElemFold_sound (foi : String) (aps : List (Nat × Option Nat)) (m : List Doc)
    (hnd : (aps.map Prod.fst).Nodup)
    (hvalid : ∀ ap ∈ aps, ∃ j doc elems, ap.2 = some j ∧ m[ap.1]? = some doc ∧
        aget doc foi = some (.list elems) ∧ j < elems.length) :
    (delElemFold foi aps m).2 = Option.none ∧
    (delElemFold foi aps m).1.length = m.length ∧
    (∀ i, (∀ oj, (i, oj) ∉ aps) → (delElemFold foi aps m).1[i]? = m[i]?) ∧
    (∀ i j, (i, some j) ∈ aps → ∃ doc elems, m[i]? = some doc ∧
        aget doc foi = some (.list elems) ∧
        (delElemFold foi aps m).1[i]? = some (aset doc foi (.list (elems.eraseIdx j)))) := by
  induction aps generalizing m with
  | nil =>
    refine ⟨rfl, rfl, fun i _ => rfl, fun i j hmem => absurd hmem (List.not_mem_nil _)⟩
  | cons ap rest ih =>
    obtain ⟨i0, oj0⟩ := ap
    obtain ⟨j0, doc0, elems0, hoj, hdoc, hget, hlt⟩ :=
      hvalid (i0, oj0) (List.mem_cons_self _ _)
    simp only at hoj
    subst hoj
    have hi0lt : i0 < m.length := (List.getElem?_eq_some_iff.mp hdoc).1
    have hstep : delElemFold foi ((i0, some j0) :: rest) m =
        delElemFold foi rest (m.set i0 (aset doc0 foi (.list (elems0.eraseIdx j0)))) := by
      simp only [delElemFold, hdoc, hget, if_pos hlt]
    rw [List.map_cons, List.nodup_cons] at hnd
    have hi0rest : ∀ oj, (i0, oj) ∉ rest := by
      intro oj hmem
      exact hnd.1 (List.mem_map.mpr ⟨(i0, oj), hmem, rfl⟩)
    have hvalid' : ∀ ap ∈ rest, ∃ j doc elems, ap.2 = some j ∧
        (m.set i0 (aset doc0 foi (.list (elems0.eraseIdx j0))))[ap.1]? = some doc ∧
        aget doc foi = some (.list elems) ∧ j < elems.length := by
      intro ap hap
      obtain ⟨j, doc, elems, h1, h2, h3, h4⟩ := hvalid ap (List.mem_cons_of_mem _ hap)
      have hne : i0 ≠ ap.1 := by
        intro he
        exact hnd.1 (List.mem_map.mpr ⟨ap, hap, he.symm⟩)
      exact ⟨j, doc, elems, h1, by rw [List.getElem?_set_ne hne]; exact h2, h3, h4⟩
    obtain ⟨e1, e2, e3, e4⟩ := ih _ hnd.2 hvalid'
    rw [hstep]
    refine ⟨e1, by rw [e2, List.length_set], ?_, ?_⟩
    · intro i hnot
      have hne : i ≠ i0 := by
        intro he
        exact hnot (some j0) (by rw [he]; exact List.mem_cons_self _ _)
      rw [e3 i (fun oj hmem => hnot oj (List.mem_cons_of_mem _ hmem)),
        List.getElem?_set_ne (fun he => hne he.symm)]
    · intro i j hmem
      rcases List.mem_cons.mp hmem with heq | hmem'
      · obtain ⟨rfl, rfl⟩ : i = i0 ∧ j = j0 := by
          constructor
          · exact congrArg Prod.fst heq
          · simpa using congrArg Prod.snd heq
        refine ⟨doc0, elems0, hdoc, hget, ?_⟩
        rw [e3 i hi0rest, List.getElem?_set_self hi0lt]
      · obtain ⟨doc, elems, h1, h2, h3⟩ := e4 i j hmem'
        have hne : i0 ≠ i := by
          intro he
          exact hi0rest (some j) (he ▸ hmem')
        rw [List.getElem?_set_ne hne] at h1
        exact ⟨doc, elems, h1, h2, h3⟩

theorem clearFoiFold_sound (foi : String) (is : List Nat) (m : List Doc)
    (hnd : is.Nodup)
    (hvalid : ∀ i ∈ is, ∃ doc elems, m[i]? = some doc ∧
        aget doc foi = some (.list elems)) :
    (clearFoiFold foi is m).2 = Option.none ∧
    (clearFoiFold foi is m).1.length = m.length ∧
    (∀ i, i ∉ is → (clearFoiFold foi is m).1[i]? = m[i]?) ∧
    (∀ i, i ∈ is → ∃ doc, m[i]? = some doc ∧
        (clearFoiFold foi is m).1[i]? = some (aset doc foi (.list []))) := by
  induction is generalizing m with
  | nil =>
    refine ⟨rfl, rfl, fun i _ => rfl, fun i hmem => absurd hmem (List.not_mem_nil _)⟩
  | cons i0 rest ih =>
    obtain ⟨doc0, elems0, hdoc, hget⟩ := hvalid i0 (List.mem_cons_self _ _)
    have hi0lt : i0 < m.length := (List.getElem?_eq_some_iff.mp hdoc).1
    have hstep : clearFoiFold foi (i0 :: rest) m =
        clearFoiFold foi rest (m.set i0 (aset doc0 foi (.list []))) := by
      simp only [clearFoiFold, hdoc, hget]
    rw [List.nodup_cons] at hnd
    have hvalid' : ∀ i ∈ rest, ∃ doc elems,
        (m.set i0 (aset doc0 foi (.list [])))[i]? = some doc ∧
        aget doc foi = some (.list elems) := by
      intro i hi
      obtain ⟨doc, elems, h1, h2⟩ := hvalid i (List.mem_cons_of_mem _ hi)
      have hne : i0 ≠ i := fun he => hnd.1 (he ▸ hi)
      exact ⟨doc, elems, by rw [List.getElem?_set_ne hne]; exact h1, h2⟩
    obtain ⟨e1, e2, e3, e4⟩ := ih _ hnd.2 hvalid'
    rw [hstep]
    refine ⟨e1, by rw [e2, List.length_set], ?_, ?_⟩
    · intro i hnot
      have hne : i ≠ i0 := fun he => hnot (he ▸ List.mem_cons_self _ _)
      rw [e3 i (fun hmem => hnot (List.mem_cons_of_mem _ hmem)),
        List.getElem?_set_ne (fun he => hne he.symm)]
    · intro i hmem
      rcases List.mem_cons.mp hmem with rfl | hmem'
      · refine ⟨doc0, hdoc, ?_⟩
        have hi0rest : i ∉ rest := hnd.1
        rw [e3 i hi0rest, List.getElem?_set_self hi0lt]
      · obtain ⟨doc, h1, h2⟩ := e4 i hmem'
        have hne : i0 ≠ i := fun he => hnd.1 (he ▸ hmem')
        rw [List.getElem?_set_ne hne] at h1
        exact ⟨doc, h1, h2⟩


theorem aset_self {α : Type} (d : List (String × α)) (k : String) (v : α)
    (h : aget d k = some v) : aset d k v = d := by
  induction d with
  | nil => simp [aget] at h
  | cons kv r ih =>
    obtain ⟨k1, v1⟩ := kv
    by_cases hk : k1 = k
    · subst hk
      simp [aget] at h
      simp [aset, h]
    · simp only [aget, if_neg hk] at h
      simp only [aset, if_neg hk, ih h]

theorem delete_in_subfield (sc : List FieldDef) (lc : Cond) (foi g : String)
    (msgs : List Doc)
    (hpath : lc.fieldPath = [foi, g])
    (hdp : (dottedParents [lc]).length = 1)
    (hsc : isInSchemaTop [foi, g] sc false lc.val = .ok ())
    (hdocs : ∀ d ∈ msgs, ∃ elems, aget d foi = some (.list elems) ∧
        (∀ e ∈ elems, ∃ p, aget e g = some p ∧ ∃ b, Op.apply lc.op p lc.val = .ok b) ∧
        elems.countP (elemSat lc.op g lc.val) ≤ 1) :
    (delete_in sc foi [lc] msgs).2 = Option.none ∧
    (delete_in sc foi [lc] msgs).1.length = msgs.length ∧
    ∀ (i : Nat) (d : Doc), msgs[i]? = some d → ∃ elems, aget d foi = some (FValue.list elems) ∧
      (delete_in sc foi [lc] msgs).1[i]? =
        some (aset d foi (FValue.list (elems.filter (fun e => ! elemSat lc.op g lc.val e)))) := by
  have hdocs' : ∀ d ∈ msgs, ∃ elems, aget d foi = some (.list elems) ∧
      ∀ e ∈ elems, ∃ p, aget e g = some p ∧ ∃ b, Op.apply lc.op p lc.val = .ok b :=
    fun d hd => (hdocs d hd).imp (fun _ h => ⟨h.1, h.2.1⟩)
  obtain ⟨fnd, hscan⟩ := gmScanA sc lc foi g msgs 0 hpath hsc hdocs'
  have hnodup : (apsA lc.op foi g lc.val msgs 0).Nodup :=
    List.Nodup.of_map Prod.fst (apsA_fst_nodup lc.op foi g lc.val msgs 0)
  have hgm : get_messages sc [lc] msgs =
      .ok (apsA lc.op foi g lc.val msgs 0, dedupById fnd) := by
    simp only [get_messages, hscan, dedupF_eq_self _ hnodup]
  -- the per-document removal formula, given by cases on the match count
  have hptwise : ∀ i d, msgs[i]? = some d →
      ∃ elems, aget d foi = some (.list elems) ∧
        ((apsA lc.op foi g lc.val msgs 0 = [] →
            aset d foi (.list (elems.filter (fun e => ! elemSat lc.op g lc.val e))) = d) ∧
         ((∃ j, satIdx lc.op g lc.val elems 0 = [j] ∧ (i, some j) ∈ apsA lc.op foi g lc.val msgs 0 ∧
            elems.filter (fun e => ! elemSat lc.op g lc.val e) = elems.eraseIdx j) ∨
          ((∀ oj, (i, oj) ∉ apsA lc.op foi g lc.val msgs 0) ∧
            elems.filter (fun e => ! elemSat lc.op g lc.val e) = elems ∧
            aset d foi (.list elems) = d))) := by
    intro i d hd
    have hmem : d ∈ msgs := List.getElem?_mem hd
    obtain ⟨elems, hget, htot, hcount⟩ := hdocs d hmem
    have hfe := filter_eq_erase_of_le_one lc.op g lc.val elems hcount
    have hlen := satIdx_length lc.op g lc.val elems 0
    refine ⟨elems, hget, ?_, ?_⟩
    · intro hempty
      by_cases hone : elems.countP (elemSat lc.op g lc.val) = 1
      · obtain ⟨j, hj⟩ := List.length_eq_one.mp (by rw [hlen, hone])
        have : (i, some j) ∈ apsA lc.op foi g lc.val msgs 0 :=
          (apsA_mem lc.op foi g lc.val msgs i (some j)).mpr
            ⟨d, j, hd, by simp only [apOfDoc, hget, hj], rfl⟩
        rw [hempty] at this
        exact absurd this (List.not_mem_nil _)
      · have hzero : elems.countP (elemSat lc.op g lc.val) = 0 := by omega
        have hnil : satIdx lc.op g lc.val elems 0 = [] :=
          List.length_eq_zero.mp (by rw [hlen, hzero])
        rw [hfe, hnil]
        exact aset_self d foi (.list elems) hget
    · by_cases hone : elems.countP (elemSat lc.op g lc.val) = 1
      · obtain ⟨j, hj⟩ := List.length_eq_one.mp (by rw [hlen, hone])
        refine Or.inl ⟨j, hj, (apsA_mem lc.op foi g lc.val msgs i (some j)).mpr
          ⟨d, j, hd, by simp only [apOfDoc, hget, hj], rfl⟩, ?_⟩
        rw [hfe, hj]
      · have hzero : elems.countP (elemSat lc.op g lc.val) = 0 := by omega
        have hnil : satIdx lc.op g lc.val elems 0 = [] :=
          List.length_eq_zero.mp (by rw [hlen, hzero])
        refine Or.inr ⟨?_, by rw [hfe, hnil], aset_self d foi (.list elems) hget⟩
        intro oj hoj
        obtain ⟨d', j', hd', hap', -⟩ := (apsA_mem lc.op foi g lc.val msgs i oj).mp hoj
        rw [hd] at hd'
        obtain rfl : d' = d := by simpa using hd'.symm
        simp only [apOfDoc, hget, hnil] at hap'
        exact Option.noConfusion hap'
  cases hemp : (apsA lc.op foi g lc.val msgs 0).isEmpty with
  | true =>
    have hnil : apsA lc.op foi g lc.val msgs 0 = [] := List.isEmpty_iff.mp hemp
    have hdel : delete_in sc foi [lc] msgs = (msgs, Option.none) := by
      simp only [delete_in, hgm, hemp, if_true]
    refine ⟨by rw [hdel], by rw [hdel], ?_⟩
    intro i d hd
    obtain ⟨elems, hget, hself, -⟩ := hptwise i d hd
    exact ⟨elems, hget, by rw [hdel, hd, hself hnil]⟩
  | false =>
    have hdel : delete_in sc foi [lc] msgs =
        delElemFold foi (apsA lc.op foi g lc.val msgs 0).reverse msgs := by
      simp only [delete_in, hgm, hemp, Bool.false_eq_true, if_false, hdp,
        eq_self_iff_true, if_true]
    have hndr : ((apsA lc.op foi g lc.val msgs 0).reverse.map Prod.fst).Nodup := by
      rw [List.map_reverse]
      exact List.nodup_reverse.mpr (apsA_fst_nodup lc.op foi g lc.val msgs 0)
    have hvalid : ∀ ap ∈ (apsA lc.op foi g lc.val msgs 0).reverse,
        ∃ j doc elems, ap.2 = some j ∧ msgs[ap.1]? = some doc ∧
          aget doc foi = some (.list elems) ∧ j < elems.length := by
      intro ap hap
      rw [List.mem_reverse] at hap
      obtain ⟨i, oj⟩ := ap
      obtain ⟨d, j, hd, hapd, rfl⟩ := (apsA_mem lc.op foi g lc.val msgs i oj).mp hap
      obtain ⟨elems, hget, -, -⟩ := hdocs d (List.getElem?_mem hd)
      simp only [apOfDoc, hget] at hapd
      have hj : satIdx lc.op g lc.val elems 0 = [j] := by
        cases hsi : satIdx lc.op g lc.val elems 0 with
        | nil => rw [hsi] at hapd; exact Option.noConfusion hapd
        | cons j1 t =>
          cases t with
          | nil =>
            rw [hsi] at hapd
            simp only [Option.some.injEq] at hapd
            rw [hapd]
          | cons j2 t2 => rw [hsi] at hapd; exact Option.noConfusion hapd
      have : j ∈ satIdx lc.op g lc.val elems 0 := by rw [hj]; exact List.mem_singleton.mpr rfl
      exact ⟨j, d, elems, rfl, hd, hget, satIdx_mem_lt lc.op g lc.val elems j this⟩
    obtain ⟨e1, e2, e3, e4⟩ := delElemFold_sound foi _ msgs hndr hvalid
    refine ⟨by rw [hdel]; exact e1, by rw [hdel]; exact e2, ?_⟩
    intro i d hd
    obtain ⟨elems, hget, -, hcases⟩ := hptwise i d hd
    rcases hcases with ⟨j, hj, hmem, hfe⟩ | ⟨hnot, hfe, hself⟩
    · obtain ⟨doc', elems', hd', hget', hout⟩ := e4 i j (List.mem_reverse.mpr hmem)
      have hdd : doc' = d := by rw [hd] at hd'; simpa using hd'.symm
      rw [hdd] at hget' hout
      have hee : elems' = elems := by rw [hget] at hget'; simpa using hget'.symm
      rw [hee] at hout
      refine ⟨elems, hget, ?_⟩
      rw [hdel, hout, hfe]
    · refine ⟨elems, hget, ?_⟩
      have hout := e3 i (fun oj hoj => hnot oj (List.mem_reverse.mp hoj))
      rw [hdel, hout, hd, hfe, hself]


theorem delete_in_toplevel (sc : List FieldDef) (tc : Cond) (foi kk : String)
    (msgs : List Doc)
    (hpath : tc.fieldPath = [kk])
    (hdp : ¬ (dottedParents [tc]).length = 1)
    (hsc : isInSchemaTop [kk] sc false tc.val = .ok ())
    (hdocs : ∀ d ∈ msgs,
        (∃ fv, aget d kk = some fv ∧ ∃ b, applyFV tc.op fv tc.val = .ok b) ∧
        ∃ elems, aget d foi = some (FValue.list elems)) :
    (delete_in sc foi [tc] msgs).2 = Option.none ∧
    (delete_in sc foi [tc] msgs).1.length = msgs.length ∧
    ∀ (i : Nat) (d : Doc), msgs[i]? = some d →
      (delete_in sc foi [tc] msgs).1[i]? =
        some (if topSat tc.op kk tc.val d then aset d foi (FValue.list []) else d) := by
  obtain ⟨fnd, hscan⟩ := gmScanB sc tc kk msgs 0 hpath hsc (fun d hd => (hdocs d hd).1)
  have hfst : (((satIdxB tc.op kk tc.val msgs 0).map
      (fun i => (i, (Option.none : Option Nat)))).map Prod.fst) =
      satIdxB tc.op kk tc.val msgs 0 := by
    rw [List.map_map]
    exact List.map_id _
  have hnodupB := satIdxB_nodup tc.op kk tc.val msgs 0
  have hnodupP : ((satIdxB tc.op kk tc.val msgs 0).map
      (fun i => (i, (Option.none : Option Nat)))).Nodup :=
    List.Nodup.of_map Prod.fst (by rw [hfst]; exact hnodupB)
  have hgm : get_messages sc [tc] msgs =
      .ok ((satIdxB tc.op kk tc.val msgs 0).map (fun i => (i, Option.none)),
        dedupById fnd) := by
    simp only [get_messages, hscan, dedupF_eq_self _ hnodupP]
  cases hemp : ((satIdxB tc.op kk tc.val msgs 0).map
      (fun i => (i, (Option.none : Option Nat)))).isEmpty with
  | true =>
    have hmapnil := List.isEmpty_iff.mp hemp
    have hnil : satIdxB tc.op kk tc.val msgs 0 = [] := by
      cases hsi : satIdxB tc.op kk tc.val msgs 0 with
      | nil => rfl
      | cons a t => rw [hsi] at hmapnil; exact absurd hmapnil (by simp)
    have hdel : delete_in sc foi [tc] msgs = (msgs, Option.none) := by
      simp only [delete_in, hgm, hemp, if_true]
    refine ⟨by rw [hdel], by rw [hdel], ?_⟩
    intro i d hd
    have hts : topSat tc.op kk tc.val d = false := by
      cases hts : topSat tc.op kk tc.val d with
      | false => rfl
      | true =>
        have : i ∈ satIdxB tc.op kk tc.val msgs 0 :=
          (satIdxB_mem tc.op kk tc.val msgs i).mpr ⟨d, hd, hts⟩
        rw [hnil] at this
        exact absurd this (List.not_mem_nil _)
    rw [hdel, hts]
    simp only [Bool.false_eq_true, if_false]
    exact hd
  | false =>
    have hdel : delete_in sc foi [tc] msgs =
        clearFoiFold foi
          (List.insertionSort (fun a b : Nat => b ≤ a)
            (satIdxB tc.op kk tc.val msgs 0)) msgs := by
      simp only [delete_in, hgm, hemp, Bool.false_eq_true, if_false, hdp, hfst,
        dedupF_eq_self _ hnodupB]
    have hperm := List.perm_insertionSort (fun a b : Nat => b ≤ a)
      (satIdxB tc.op kk tc.val msgs 0)
    have hnds : (List.insertionSort (fun a b : Nat => b ≤ a)
        (satIdxB tc.op kk tc.val msgs 0)).Nodup :=
      hperm.nodup_iff.mpr hnodupB
    have hvalid : ∀ i ∈ List.insertionSort (fun a b : Nat => b ≤ a)
        (satIdxB tc.op kk tc.val msgs 0),
        ∃ doc elems, msgs[i]? = some doc ∧ aget doc foi = some (FValue.list elems) := by
      intro i hi
      rw [hperm.mem_iff] at hi
      obtain ⟨d, hd, -⟩ := (satIdxB_mem tc.op kk tc.val msgs i).mp hi
      obtain ⟨-, elems, hget⟩ := hdocs d (List.getElem?_mem hd)
      exact ⟨d, elems, hd, hget⟩
    obtain ⟨e1, e2, e3, e4⟩ := clearFoiFold_sound foi _ msgs hnds hvalid
    refine ⟨by rw [hdel]; exact e1, by rw [hdel]; exact e2, ?_⟩
    intro i d hd
    cases hts : topSat tc.op kk tc.val d with
    | true =>
      have hi : i ∈ satIdxB tc.op kk tc.val msgs 0 :=
        (satIdxB_mem tc.op kk tc.val msgs i).mpr ⟨d, hd, hts⟩
      obtain ⟨doc', hd', hout⟩ := e4 i (hperm.mem_iff.mpr hi)
      have hdd : doc' = d := by rw [hd] at hd'; simpa using hd'.symm
      rw [hdd] at hout
      rw [hdel, hout]
      simp only [if_true]
    | false =>
      have hni : i ∉ satIdxB tc.op kk tc.val msgs 0 := by
        intro hi
        obtain ⟨d', hd', hts'⟩ := (satIdxB_mem tc.op kk tc.val msgs i).mp hi
        rw [hd] at hd'
        obtain rfl : d' = d := by simpa using hd'.symm
        rw [hts] at hts'
        exact Bool.noConfusion hts'
      have hout := e3 i (fun hi => hni (hperm.mem_iff.mp hi))
      rw [hdel, hout, hd]
      simp only [Bool.false_eq_true, if_false]


/-- C5 (amended).  The `DELETE IN(foi) WHERE` block selects per-element removal
iff the condition keys have exactly one distinct dotted parent; under that
branch, a single condition on a sub-field `foi.g` whose evaluation succeeds on
every element and matches at most one element per document (a document with
several matching elements is never found, see C1) removes exactly the matching
elements — sibling elements and the parent documents stay intact; with a
single top-level condition (no dotted parent, so the other branch) the entire
`foi` list of each matched document is cleared and unmatched documents are
untouched. -/
theorem c5_delete_in_amended (sc : List FieldDef) (lc tc : Cond) (foi g kk : String)
    (msgsA msgsB : List Doc)
    (hpathA : lc.fieldPath = [foi, g])
    (hdpA : (dottedParents [lc]).length = 1)
    (hscA : isInSchemaTop [foi, g] sc false lc.val = .ok ())
    (hdocsA : ∀ d ∈ msgsA, ∃ elems, aget d foi = some (FValue.list elems) ∧
        (∀ e ∈ elems, ∃ p, aget e g = some p ∧ ∃ b, Op.apply lc.op p lc.val = .ok b) ∧
        elems.countP (elemSat lc.op g lc.val) ≤ 1)
    (hpathB : tc.fieldPath = [kk])
    (hdpB : ¬ (dottedParents [tc]).length = 1)
    (hscB : isInSchemaTop [kk] sc false tc.val = .ok ())
    (hdocsB : ∀ d ∈ msgsB,
        (∃ fv, aget d kk = some fv ∧ ∃ b, applyFV tc.op fv tc.val = .ok b) ∧
        ∃ elems, aget d foi = some (FValue.list elems)) :
    ((delete_in sc foi [lc] msgsA).2 = Option.none ∧
     (delete_in sc foi [lc] msgsA).1.length = msgsA.length ∧
     ∀ (i : Nat) (d : Doc), msgsA[i]? = some d →
       ∃ elems, aget d foi = some (FValue.list elems) ∧
         (delete_in sc foi [lc] msgsA).1[i]? =
           some (aset d foi (FValue.list
             (elems.filter (fun e => ! elemSat lc.op g lc.val e))))) ∧
    ((delete_in sc foi [tc] msgsB).2 = Option.none ∧
     (delete_in sc foi [tc] msgsB).1.length = msgsB.length ∧
     ∀ (i : Nat) (d : Doc), msgsB[i]? = some d →
       (delete_in sc foi [tc] msgsB).1[i]? =
         some (if topSat tc.op kk tc.val d then aset d foi (FValue.list []) else d)) :=
  ⟨delete_in_subfield sc lc foi g msgsA hpathA hdpA hscA hdocsA,
   delete_in_toplevel sc tc foi kk msgsB hpathB hdpB hscB hdocsB⟩

/-- The condition on a sub-field of the embedded list (`broadcasted`). -/
def c5lc : Cond := ⟨"broadcasted.client_name", .eq, .str "Mike"⟩

/-- A top-level condition. -/
def c5tc : Cond := ⟨"message_id", .eq, .str "idA"⟩

/-- A condition set naming a sub-field of `broadcasted` *and* a sub-field of
another embedded record. -/
def c5mixed : List Cond := [c5lc, ⟨"timestamps.client_sent", .eq, .dt dt₁⟩]

/-- C5 counterexample.  The conditions name `broadcasted.client_name` — a
sub-field of the list field of interest — and both conditions hold, yet the
whole `broadcasted` list is cleared: Anna's entry, which does not match the
sub-field condition, is deleted together with Mike's.  The branch is selected
by counting distinct dotted parents (here two, `broadcasted` and
`timestamps`), not by whether a sub-field of `foi` was named; with the single
sub-field condition alone the per-element branch removes exactly Mike's
entry. -/
theorem c5_counterexample :
    delete_in messageSchema "broadcasted" c5mixed [c1doc] =
      ([aset c1doc "broadcasted" (.list [])], Option.none) ∧
    dottedParents c5mixed = ["broadcasted", "timestamps"] ∧
    aget c1doc "broadcasted" = some (.list [recipPending "Mike", recipPending "Anna"]) ∧
    elemSat .eq "client_name" (.str "Mike") (recipPending "Mike") = true ∧
    elemSat .eq "client_name" (.str "Mike") (recipPending "Anna") = false ∧
    delete_in messageSchema "broadcasted" [c5lc] [c1doc] =
      ([aset c1doc "broadcasted" (.list [recipPending "Anna"])], Option.none) :=
  ⟨rfl, rfl, rfl, rfl, rfl, rfl⟩

theorem c5_delete_in_amended_witness :
    ((delete_in messageSchema "broadcasted" [c5lc] [c1doc]).2 = Option.none ∧
     (delete_in messageSchema "broadcasted" [c5lc] [c1doc]).1.length = [c1doc].length ∧
     ∀ (i : Nat) (d : Doc), [c1doc][i]? = some d →
       ∃ elems, aget d "broadcasted" = some (FValue.list elems) ∧
         (delete_in messageSchema "broadcasted" [c5lc] [c1doc]).1[i]? =
           some (aset d "broadcasted" (FValue.list
             (elems.filter (fun e => ! elemSat c5lc.op "client_name" c5lc.val e))))) ∧
    ((delete_in messageSchema "broadcasted" [c5tc] [c1doc]).2 = Option.none ∧
     (delete_in messageSchema "broadcasted" [c5tc] [c1doc]).1.length = [c1doc].length ∧
     ∀ (i : Nat) (d : Doc), [c1doc][i]? = some d →
       (delete_in messageSchema "broadcasted" [c5tc] [c1doc]).1[i]? =
         some (if topSat c5tc.op "message_id" c5tc.val d
           then aset d "broadcasted" (FValue.list []) else d)) :=
  c5_delete_in_amended messageSchema c5lc c5tc "broadcasted" "client_name" "message_id"
    [c1doc] [c1doc] rfl rfl rfl
    (by
      intro d hd
      rw [List.mem_singleton] at hd
      subst hd
      refine ⟨[recipPending "Mike", recipPending "Anna"], rfl, ?_, by decide⟩
      intro e he
      rcases List.mem_cons.mp he with rfl | he2
      · exact ⟨.str "Mike", rfl, true, rfl⟩
      · rw [List.mem_singleton] at he2
        subst he2
        exact ⟨.str "Anna", rfl, false, rfl⟩)
    rfl (by decide) rfl
    (by
      intro d hd
      rw [List.mem_singleton] at hd
      subst hd
      exact ⟨⟨.prim (.str "idA"), rfl, true, rfl⟩,
        [recipPending "Mike", recipPending "Anna"], rfl⟩)

end ESM
